import Mathlib

/-!
Verification of the resilience/normalization layer of auto-doc-rs.

This file gives a shallow embedding, in Lean 4, of the parts of the
repository that the claims C1..C10 are about:

* the client pool and its selection behaviors
  (src/src/llm_interface/pool/mod.rs),
* the error classifier (src/src/llm_interface/exceptions.rs),
* the retry engine (src/src/llm_interface/mod.rs),
* the JSON-Schema simplifier (src/src/llm_interface/simplified_schema.rs),
* the JSON extraction strategies
  (src/doc-generator/src/llm_interface/extract_json.rs) and `try_parse`
  (src/src/llm_interface/mod.rs).

Modelling conventions:

* `SystemTime` is a `Nat` (seconds).  `SystemTime::now().duration_since(t)`
  returns an error when `t` is in the future and the code maps that error to
  `Duration::ZERO` via `unwrap_or`; Lean's truncated `Nat` subtraction
  `now - t` models this exactly.
* `std::collections::HashMap` is an association list for keyed lookup and
  insertion (insert overwrites an existing key).  Its *iteration order* is
  unspecified by Rust; wherever the Rust code iterates over `values()` the
  embedding takes the sequence of values as an explicit parameter `vs`
  constrained to be a permutation of the stored members.  A claim that
  depends on a particular iteration order therefore has to hold for every
  permutation.
* The shared atomic round-robin counter is threaded explicitly as state.
* Rust machine integers in this code never approach their bounds in the
  modelled paths (priorities, counters); they are modelled as `Nat`.
-/

namespace AutoDoc

/-! ## Pool data model (src/src/llm_interface/pool/mod.rs) -/

/-- A backend client.  Its stable identity is `id() = hash(model, api_key)`
(a `u64`, see src/src/llm_interface/client/mod.rs:309); the hash value is
kept opaque here.  Two clients are equal iff their identities are equal,
which is how the pool code compares them. -/
structure LlmClient where
  client_id : Nat
  deriving DecidableEq, Repr

/-- Selection behavior of the pool. -/
inductive Behavior where
  | distribute
  | failover
  | combination
  deriving DecidableEq, Repr

/-- One pool member: a client plus priority and failure timestamp. -/
structure PoolMember where
  priority : Nat
  client : LlmClient
  last_error : Option Nat
  deriving DecidableEq, Repr

/-- Insert into the association list modelling `HashMap`: overwrite the
value when the key is present, append otherwise. -/
def hashInsert (m : List (Nat × PoolMember)) (k : Nat) (v : PoolMember) :
    List (Nat × PoolMember) :=
  if m.any (fun kv => kv.1 = k) then
    m.map (fun kv => if kv.1 = k then (k, v) else kv)
  else
    m ++ [(k, v)]

/-- Keyed lookup in the association list modelling `HashMap`. -/
def hashLookup (m : List (Nat × PoolMember)) (k : Nat) : Option PoolMember :=
  (m.find? (fun kv => kv.1 = k)).map (fun kv => kv.2)

/-- The pool: the `clients` HashMap, the ordered identity sequence
`client_order`, the behavior and the shared atomic round-robin counter. -/
structure LlmPool where
  clients : List (Nat × PoolMember)
  client_order : List Nat
  behavior : Behavior
  round_robin_index : Nat
  deriving Repr

/-- `LlmPool::new`: push every member's id onto `client_order` and insert it
into the map (duplicate identities overwrite the map entry but still occupy
a slot of `client_order`, exactly as in the source). -/
def LlmPool.new (members : List PoolMember) (behavior : Behavior) : LlmPool :=
  { clients := members.foldl
      (fun m mem => hashInsert m mem.client.client_id mem) []
    client_order := members.map (fun mem => mem.client.client_id)
    behavior := behavior
    round_robin_index := 0 }

/-- The fixed cooldown window `ERROR_COOLDOWN` (60 seconds). -/
def ERROR_COOLDOWN : Nat := 60

/-- A member is outside the cooldown: the loop in `get_failover_client`
skips a member iff `now.duration_since(last_error).unwrap_or(ZERO) <
ERROR_COOLDOWN`.  Truncated subtraction models `unwrap_or(ZERO)`. -/
def outsideCooldown (now : Nat) (m : PoolMember) : Bool :=
  match m.last_error with
  | none => true
  | some t => decide (ERROR_COOLDOWN ≤ now - t)

/-- Priority comparison used by `sort_by_key(|member| member.priority)`. -/
def prLe (a b : PoolMember) : Prop := a.priority ≤ b.priority

instance : DecidableRel prLe := fun _ _ => Nat.decLe _ _

instance : IsTotal PoolMember prLe := ⟨fun _ _ => Nat.le_total _ _⟩

instance : IsTrans PoolMember prLe := ⟨fun _ _ _ h h' => Nat.le_trans h h'⟩

/-- `LlmPool::get_distribute_client`: round-robin over `client_order` using
the shared counter; returns the chosen client and the pool with the counter
advanced (`fetch_add` returns the old value).  `none` models the panics
(`% 0` or a missing map entry). -/
def get_distribute_client (p : LlmPool) : Option (LlmClient × LlmPool) :=
  if p.client_order.length = 0 then none
  else
    let current_index := p.round_robin_index % p.client_order.length
    match p.client_order.get? current_index with
    | none => none
    | some cid =>
      match hashLookup p.clients cid with
      | none => none
      | some member =>
        some (member.client, { p with round_robin_index := p.round_robin_index + 1 })

/-- `LlmPool::get_failover_client`.  `vs` is the sequence produced by
`self.clients.values()` (HashMap iteration order, a permutation of the
stored members).  The code stably sorts it by priority, returns the first
member outside cooldown, and otherwise the head of the sorted sequence. -/
def get_failover_client (vs : List PoolMember) (now : Nat) : Option LlmClient :=
  let sorted_clients := vs.insertionSort prLe
  match sorted_clients.find? (fun m => outsideCooldown now m) with
  | some member => some member.client
  | none => (sorted_clients.head?).map (fun m => m.client)

/-- The ascending priority-key list of the `BTreeMap` grouping in
`get_combination_client`: the distinct priorities of `vs`, sorted. -/
def groupKeys (vs : List PoolMember) : List Nat :=
  ((vs.map (fun m => m.priority)).insertionSort (· ≤ ·)).destutter (· ≠ ·)

/-- The members of one priority group, in `values()` iteration order (the
`BTreeMap` groups are filled by pushing members in iteration order). -/
def groupMembers (vs : List PoolMember) (pr : Nat) : List PoolMember :=
  vs.filter (fun m => m.priority = pr)

/-- `Iterator::min_by_key(|member| member.priority)`: the first member of
the iteration sequence with minimal priority. -/
def minByPriority (vs : List PoolMember) : Option PoolMember :=
  vs.foldl
    (fun acc m => match acc with
      | none => some m
      | some best => if m.priority < best.priority then some m else some best)
    none

/-- `LlmPool::get_combination_client`.  `vs` is the HashMap `values()`
iteration order, `ctr` the shared counter, `total` the length of
`client_order`.  Walk the priority groups in ascending order; in the first
group with a member outside cooldown, pick index
`(ctr % total) % available.length` among its available members (note the
double modulo of the source) and advance the counter; if no group has an
available member, return the first member of minimal priority without
touching the counter. -/
def get_combination_client (vs : List PoolMember) (now : Nat) (ctr total : Nat) :
    Option LlmClient × Nat :=
  match (groupKeys vs).find?
      (fun pr => !((groupMembers vs pr).filter (outsideCooldown now)).isEmpty) with
  | some pr =>
    let available_clients := (groupMembers vs pr).filter (outsideCooldown now)
    let current_index := ctr % total
    ((available_clients.get? (current_index % available_clients.length)).map
        (fun m => m.client),
      ctr + 1)
  | none => ((minByPriority vs).map (fun m => m.client), ctr)

/-- `LlmPool::get_client`: panic (`none`) on an empty pool, then dispatch on
the behavior.  `vs` is the `values()` iteration order used by the failover
and combination paths. -/
def get_client (p : LlmPool) (vs : List PoolMember) (now : Nat) :
    Option (LlmClient × LlmPool) :=
  if p.clients.isEmpty then none
  else
    match p.behavior with
    | .distribute => get_distribute_client p
    | .failover => (get_failover_client vs now).map (fun c => (c, p))
    | .combination =>
      match get_combination_client vs now p.round_robin_index p.client_order.length with
      | (some c, ctr) => some (c, { p with round_robin_index := ctr })
      | (none, _) => none

/-- `LlmPool::mark_error`: set `last_error` to the current time for the
member whose key equals `client.id()`; no-op if the id is unknown. -/
def mark_error (p : LlmPool) (client : LlmClient) (now : Nat) : LlmPool :=
  { p with clients := p.clients.map (fun kv =>
      if kv.1 = client.client_id
        then (kv.1, { kv.2 with last_error := some now })
        else kv) }

/-- The result and final pool of `execute_request`.  The request function is
modelled by its outcome per attempt (`outcomes i = some v`: the `i`-th
attempt succeeds with `v`; `none`: it fails).  `vsSeq i` and `nowSeq i` are
the HashMap iteration order and clock value observed by the `i`-th attempt.

In the failure branch the source executes
`if let Ok(mut pool) = Arc::try_unwrap(Arc::new(self.clone())) { pool.mark_error(&client); }`:
it clones the whole pool into a fresh `Arc` (so `try_unwrap` always
succeeds), applies `mark_error` to the clone, and drops it.  The embedding
mirrors this: `cloned` receives the mutation and is discarded. -/
def execute_request_go {T : Type} (vsSeq : Nat → List PoolMember)
    (nowSeq : Nat → Nat) (outcomes : Nat → Option T) :
    Nat → Nat → LlmPool → Option T × LlmPool
  | _, 0, pool => (none, pool)
  | i, fuel + 1, pool =>
    match get_client pool (vsSeq i) (nowSeq i) with
    | none => (none, pool)
    | some (client, pool') =>
      match outcomes i with
      | some v => (some v, pool')
      | none =>
        let cloned := pool'
        let _ := mark_error cloned client (nowSeq i)
        execute_request_go vsSeq nowSeq outcomes (i + 1) fuel pool'

/-- `LlmPool::execute_request`: under `Distribute` a single attempt with no
failure marking; otherwise up to `self.len()` attempts, marking a clone of
the pool after each failure. -/
def execute_request {T : Type} (p : LlmPool) (vsSeq : Nat → List PoolMember)
    (nowSeq : Nat → Nat) (outcomes : Nat → Option T) : Option T × LlmPool :=
  match p.behavior with
  | .distribute =>
    match get_client p (vsSeq 0) (nowSeq 0) with
    | none => (none, p)
    | some (_, p') => (outcomes 0, p')
  | _ => execute_request_go vsSeq nowSeq outcomes 0 p.clients.length p

/-! ## Error classifier (src/src/llm_interface/exceptions.rs) -/

/-- `LlmError` (the variants carrying a string; the two `#[from]` schema
variants are not produced by the functions modelled here). -/
inductive LlmError where
  | Build (s : String)
  | Chat (s : String)
  | ResponseParsing (s : String)
  | RateLimit (s : String)
  | ServerError (s : String)
  deriving DecidableEq, Repr

/-- `LlmError::is_retryable`. -/
def LlmError.is_retryable : LlmError → Bool
  | .RateLimit _ => true
  | .ServerError _ => true
  | _ => false

/-- `str::to_lowercase`, restricted to its ASCII action (`Char.toLower`
lower-cases exactly the ASCII uppercase letters).  All substrings the
classifier searches for are ASCII. -/
def lowercase (s : String) : String :=
  String.mk (s.toList.map Char.toLower)

/-- `str::contains(pat)`: `pat` occurs as a contiguous substring. -/
def containsPat (hay pat : String) : Bool :=
  decide (List.IsInfix pat.toList hay.toList)

/-- The rate-limit indicator substrings, in source order. -/
def rateLimitPatterns : List String :=
  ["429", "rate limit", "too many requests", "quota exceeded",
   "requests per minute", "requests per hour"]

/-- The server-error indicator substrings, in source order.  Note: the
source checks "500", "502", "503", "504" — it does not check "501" — and it
additionally checks "http status server error". -/
def serverErrorPatterns : List String :=
  ["500", "502", "503", "504", "internal server error", "bad gateway",
   "service unavailable", "gateway timeout", "http status server error"]

/-- `LlmError::from_error_string`. -/
def from_error_string (error : String) : LlmError :=
  let error_lower := lowercase error
  if rateLimitPatterns.any (fun pat => containsPat error_lower pat) then
    .RateLimit error
  else if serverErrorPatterns.any (fun pat => containsPat error_lower pat) then
    .ServerError error
  else
    .Chat error

/-- C5's claimed classifier, modelled from the claim's words: the same
rate-limit list, but with "501" among the server-error substrings and
without "http status server error".  Used only to exhibit where the claim
and the code disagree. -/
def claimClassifierC5 (error : String) : LlmError :=
  let error_lower := lowercase error
  if rateLimitPatterns.any (fun pat => containsPat error_lower pat) then
    .RateLimit error
  else if ["500", "501", "502", "503", "504", "internal server error",
      "bad gateway", "service unavailable",
      "gateway timeout"].any (fun pat => containsPat error_lower pat) then
    .ServerError error
  else
    .Chat error

/-! ## Retry engine (src/src/llm_interface/mod.rs,
`get_structured_response_with_retry`) -/

/-- The retry loop.  `op i` is the outcome of the `i`-th invocation of
`get_structured_response` (0-based), `backoff j` the value of the `j`-th
call to `ExponentialBackoff::next_backoff` (`none` models the policy giving
up because `max_elapsed_time` is exhausted).  `i` counts attempts already
performed, `sleeps` the backoff sleeps already performed; the function
returns the final result, the total number of attempts and the total
number of sleeps.  The Rust `attempt` variable equals `i + 1` after the
increment at the top of the error branch. -/
def retry_go {T : Type} (op : Nat → Except LlmError T) (max_retries : Nat)
    (backoff : Nat → Option Nat) (i sleeps : Nat) :
    Except LlmError T × Nat × Nat :=
  match op i with
  | .ok v => (.ok v, i + 1, sleeps)
  | .error e =>
    if h : e.is_retryable = false ∨ i + 1 > max_retries then
      (.error e, i + 1, sleeps)
    else
      match backoff sleeps with
      | some _delay => retry_go op max_retries backoff (i + 1) (sleeps + 1)
      | none => (.error e, i + 1, sleeps)
termination_by max_retries + 1 - i
decreasing_by
  simp only [not_or, not_lt] at h
  omega

/-- `get_structured_response_with_retry`, as a function of the attempt
outcomes and the backoff schedule: run the loop from zero attempts. -/
def get_structured_response_with_retry {T : Type}
    (op : Nat → Except LlmError T) (max_retries : Nat)
    (backoff : Nat → Option Nat) : Except LlmError T × Nat × Nat :=
  retry_go op max_retries backoff 0 0

/-! ## Helper lemmas about selection -/

/-- `get_client` never changes the `clients` map (only the round-robin
counter of the returned pool may differ). -/
theorem get_client_clients_eq {p : LlmPool} {vs : List PoolMember} {now : Nat}
    {c : LlmClient} {p' : LlmPool} (h : get_client p vs now = some (c, p')) :
    p'.clients = p.clients := by
  unfold get_client at h
  split at h
  · exact absurd h (by simp)
  · split at h
    · unfold get_distribute_client at h
      split at h
      · exact absurd h (by simp)
      · dsimp only at h
        split at h
        · exact absurd h (by simp)
        · split at h
          · exact absurd h (by simp)
          · simp only [Option.some.injEq, Prod.mk.injEq] at h
            rw [← h.2]
    · cases hf : get_failover_client vs now with
      | none => rw [hf] at h; exact absurd h (by simp)
      | some a =>
        rw [hf] at h
        simp only [Option.map_some', Option.some.injEq, Prod.mk.injEq] at h
        rw [← h.2]
    · split at h
      · simp only [Option.some.injEq, Prod.mk.injEq] at h
        rw [← h.2]
      · exact absurd h (by simp)

/-- The attempt loop of `execute_request` leaves the `clients` map
untouched: failures mutate only the discarded clone. -/
theorem execute_request_go_clients_eq {T : Type} (vsSeq : Nat → List PoolMember)
    (nowSeq : Nat → Nat) (outcomes : Nat → Option T) :
    ∀ (fuel i : Nat) (pool : LlmPool),
      (execute_request_go vsSeq nowSeq outcomes i fuel pool).2.clients = pool.clients := by
  intro fuel
  induction fuel with
  | zero => intro i pool; rfl
  | succ n ih =>
    intro i pool
    show (match get_client pool (vsSeq i) (nowSeq i) with
      | none => (none, pool)
      | some (client, pool') =>
        match outcomes i with
        | some v => (some v, pool')
        | none =>
          let cloned := pool'
          let _ := mark_error cloned client (nowSeq i)
          execute_request_go vsSeq nowSeq outcomes (i + 1) n pool').2.clients = pool.clients
    cases hg : get_client pool (vsSeq i) (nowSeq i) with
    | none => rfl
    | some cp =>
      obtain ⟨client, pool'⟩ := cp
      have hcl : pool'.clients = pool.clients := get_client_clients_eq hg
      cases outcomes i with
      | some v => simpa using hcl
      | none => simpa using (ih (i + 1) pool').trans hcl

/-- C1: In `LlmPool::execute_request` under a non-Distribute behavior,
`mark_error` is applied to a freshly created clone of the pool that is
immediately dropped.  For every pool and every request function whose
attempts all fail, after `execute_request` returns, the pool's stored
members — in particular every member's `last_error` field — are exactly
what they were before the call, so subsequent `get_client` calls on the
pool observe no failure history from `execute_request`. -/
theorem claim_C1 {T : Type} (p : LlmPool) (vsSeq : Nat → List PoolMember)
    (nowSeq : Nat → Nat) (outcomes : Nat → Option T)
    (hbeh : p.behavior ≠ .distribute) (_hfail : ∀ i, outcomes i = none) :
    (execute_request p vsSeq nowSeq outcomes).2.clients = p.clients ∧
    ∀ cid, (hashLookup (execute_request p vsSeq nowSeq outcomes).2.clients cid).map
        PoolMember.last_error
      = (hashLookup p.clients cid).map PoolMember.last_error := by
  have hmain : (execute_request p vsSeq nowSeq outcomes).2.clients = p.clients := by
    unfold execute_request
    cases hb : p.behavior
    · exact absurd hb hbeh
    · exact execute_request_go_clients_eq vsSeq nowSeq outcomes p.clients.length 0 p
    · exact execute_request_go_clients_eq vsSeq nowSeq outcomes p.clients.length 0 p
  exact ⟨hmain, fun cid => by rw [hmain]⟩

/-- Concrete witness data for the pool claims: two members with distinct
client identities. -/
def wm1 : PoolMember := { priority := 1, client := { client_id := 10 }, last_error := none }

def wm2 : PoolMember := { priority := 2, client := { client_id := 20 }, last_error := none }

/-- Witness for C1: a concrete failover pool with two members and an
always-failing request function; the stored members are unchanged. -/
theorem claim_C1_witness :
    (execute_request (T := Nat) (LlmPool.new [wm1, wm2] .failover)
        (fun _ => [wm1, wm2]) (fun _ => 1000) (fun _ => none)).2.clients
      = (LlmPool.new [wm1, wm2] .failover).clients :=
  (claim_C1 (T := Nat) (LlmPool.new [wm1, wm2] .failover) (fun _ => [wm1, wm2])
    (fun _ => 1000) (fun _ => none) (by decide) (fun _ => rfl)).1

/-! ## C4: Distribute round-robin -/

/-- One `get_client` call on a Distribute pool, keeping the advanced pool
(the `vs`/`now` arguments are irrelevant for Distribute; `[]`/`0` stand in). -/
def distribute_step (p : LlmPool) : LlmPool :=
  match get_client p [] 0 with
  | some (_, p') => p'
  | none => p

/-- The pool after `k` consecutive `get_client` calls with no interleaving
callers. -/
def distribute_calls (p : LlmPool) : Nat → LlmPool
  | 0 => p
  | k + 1 => distribute_step (distribute_calls p k)

/-- The client returned by the `k`-th (0-based) consecutive `get_client`
call. -/
def distribute_result (p : LlmPool) (k : Nat) : Option LlmClient :=
  (get_client (distribute_calls p k) [] 0).map Prod.fst

/-- Building the clients map from members with pairwise distinct identities
yields the plain association list, whatever map `acc` it starts from,
provided no identity collides with `acc`. -/
theorem foldl_hashInsert_eq (members : List PoolMember) :
    ∀ acc : List (Nat × PoolMember),
      (members.map (fun m => m.client.client_id)).Nodup →
      (∀ m ∈ members, ∀ kv ∈ acc, kv.1 ≠ m.client.client_id) →
      members.foldl (fun m mem => hashInsert m mem.client.client_id mem) acc
        = acc ++ members.map (fun m => (m.client.client_id, m)) := by
  induction members with
  | nil => intro acc _ _; simp
  | cons m0 rest ih =>
    intro acc hnd hacc
    rw [List.map_cons, List.nodup_cons] at hnd
    have hnotin : (hashInsert acc m0.client.client_id m0)
        = acc ++ [(m0.client.client_id, m0)] := by
      unfold hashInsert
      have : acc.any (fun kv => kv.1 = m0.client.client_id) = false := by
        rw [List.any_eq_false]
        intro kv hkv
        simpa using hacc m0 (by simp) kv hkv
      rw [this]
      simp
    have hacc' : ∀ m ∈ rest, ∀ kv ∈ acc ++ [(m0.client.client_id, m0)],
        kv.1 ≠ m.client.client_id := by
      intro m hm kv hkv
      rcases List.mem_append.mp hkv with hkv | hkv
      · exact hacc m (by simp [hm]) kv hkv
      · simp only [List.mem_singleton] at hkv
        subst hkv
        intro hcontra
        exact hnd.1 (List.mem_map.mpr ⟨m, hm, hcontra.symm⟩)
    calc (m0 :: rest).foldl (fun m mem => hashInsert m mem.client.client_id mem) acc
        = rest.foldl (fun m mem => hashInsert m mem.client.client_id mem)
            (hashInsert acc m0.client.client_id m0) := rfl
      _ = acc ++ [(m0.client.client_id, m0)]
            ++ rest.map (fun m => (m.client.client_id, m)) := by
          rw [hnotin]; exact ih _ hnd.2 hacc'
      _ = acc ++ (m0 :: rest).map (fun m => (m.client.client_id, m)) := by simp

/-- In the plain association list of a nodup-identity member list, looking
up a member's identity returns that member. -/
theorem hashLookup_assoc (members : List PoolMember)
    (hnd : (members.map (fun m => m.client.client_id)).Nodup) :
    ∀ m ∈ members,
      hashLookup (members.map (fun m => (m.client.client_id, m))) m.client.client_id
        = some m := by
  induction members with
  | nil => intro m hm; simp at hm
  | cons m0 rest ih =>
    intro m hm
    rw [List.map_cons, List.nodup_cons] at hnd
    rcases List.mem_cons.mp hm with rfl | hm'
    · unfold hashLookup
      simp [List.find?_cons_of_pos]
    · have hne : m0.client.client_id ≠ m.client.client_id := by
        intro hcontra
        exact hnd.1 (List.mem_map.mpr ⟨m, hm', hcontra.symm⟩)
      unfold hashLookup
      rw [List.map_cons, List.find?_cons_of_neg _ (by simpa using hne)]
      exact ih hnd.2 m hm'

/-- The clients map of a freshly built pool with nodup identities is the
plain association list. -/
theorem new_clients_eq (members : List PoolMember) (behavior : Behavior)
    (hnd : (members.map (fun m => m.client.client_id)).Nodup) :
    (LlmPool.new members behavior).clients
      = members.map (fun m => (m.client.client_id, m)) := by
  unfold LlmPool.new
  simpa using foldl_hashInsert_eq members [] hnd (by simp)

/-- One Distribute `get_client` call on the canonical pool at counter
`ctr`: it returns the client of the member at index `ctr % N` of the
insertion order and advances the counter. -/
theorem get_client_distribute_at (members : List PoolMember)
    (hnd : (members.map (fun m => m.client.client_id)).Nodup)
    (hne : members ≠ []) (ctr : Nat) :
    ∃ m : PoolMember, members.get? (ctr % members.length) = some m ∧
      get_client
        { clients := members.map (fun m => (m.client.client_id, m)),
          client_order := members.map (fun m => m.client.client_id),
          behavior := .distribute, round_robin_index := ctr } [] 0
      = some (m.client,
        { clients := members.map (fun m => (m.client.client_id, m)),
          client_order := members.map (fun m => m.client.client_id),
          behavior := .distribute, round_robin_index := ctr + 1 }) := by
  have hNpos : 0 < members.length := List.length_pos.mpr hne
  have hlt : ctr % members.length < members.length := Nat.mod_lt _ hNpos
  refine ⟨members.get ⟨ctr % members.length, hlt⟩, List.get?_eq_get hlt, ?_⟩
  have hmem : members.get ⟨ctr % members.length, hlt⟩ ∈ members := List.get_mem _ _ _
  unfold get_client
  rw [if_neg (by simp [List.isEmpty_iff, hne])]
  show get_distribute_client _ = _
  unfold get_distribute_client
  rw [if_neg (by simp [hne])]
  have hord : (members.map (fun m => m.client.client_id)).get?
      (ctr % (members.map (fun m => m.client.client_id)).length)
      = some ((members.get ⟨ctr % members.length, hlt⟩).client.client_id) := by
    rw [List.length_map, List.get?_map, List.get?_eq_get hlt]
    rfl
  simp only [List.length_map] at hord ⊢
  rw [hord]
  simp only
  rw [hashLookup_assoc members hnd _ hmem]

/-- After `k` consecutive Distribute calls the pool is the canonical pool
with counter `k`. -/
theorem distribute_calls_eq (members : List PoolMember)
    (hnd : (members.map (fun m => m.client.client_id)).Nodup)
    (hne : members ≠ []) :
    ∀ k, distribute_calls (LlmPool.new members .distribute) k
      = { clients := members.map (fun m => (m.client.client_id, m)),
          client_order := members.map (fun m => m.client.client_id),
          behavior := .distribute, round_robin_index := k } := by
  intro k
  induction k with
  | zero =>
    show LlmPool.new members .distribute = _
    unfold LlmPool.new
    congr 1
    simpa using foldl_hashInsert_eq members [] hnd (by simp)
  | succ n ih =>
    show distribute_step (distribute_calls (LlmPool.new members .distribute) n) = _
    rw [ih]
    obtain ⟨m, _, hc⟩ := get_client_distribute_at members hnd hne n
    unfold distribute_step
    rw [hc]

/-- C4: Under Distribute, for a pool built from `N ≥ 1` members with
pairwise distinct client identities and a fresh counter, the `k`-th
(0-based) of a run of consecutive `get_client` calls with no interleaving
callers returns the member at index `k % N` of the insertion order — so
the first `N` calls return the `N` distinct members in insertion order and
the `(N+1)`-th call returns the first member again — and this holds for
arbitrary priorities and failure timestamps of the members, which the
Distribute path never reads. -/
theorem claim_C4 (members : List PoolMember)
    (hnd : (members.map (fun m => m.client.client_id)).Nodup)
    (hne : members ≠ []) :
    (∀ k, distribute_result (LlmPool.new members .distribute) k
        = (members.get? (k % members.length)).map (fun m => m.client)) ∧
    (members.map (fun m => m.client)).Nodup := by
  constructor
  · intro k
    unfold distribute_result
    rw [distribute_calls_eq members hnd hne k]
    obtain ⟨m, hm, hc⟩ := get_client_distribute_at members hnd hne k
    rw [hc, hm]
    rfl
  · have : ((members.map (fun m => m.client)).map (fun c => c.client_id)).Nodup := by
      simpa [List.map_map] using hnd
    exact this.of_map _

/-- Witness for C4: three members with distinct identities; the first four
calls return members 0, 1, 2 and then member 0 again. -/
theorem claim_C4_witness :
    distribute_result (LlmPool.new
      [{ priority := 9, client := { client_id := 1 }, last_error := some 0 },
       { priority := 5, client := { client_id := 2 }, last_error := none },
       { priority := 7, client := { client_id := 3 }, last_error := some 99 }]
      .distribute) 3 = some { client_id := 1 } := by
  have h := (claim_C4
    [{ priority := 9, client := { client_id := 1 }, last_error := some 0 },
     { priority := 5, client := { client_id := 2 }, last_error := none },
     { priority := 7, client := { client_id := 3 }, last_error := some 99 }]
    (by decide) (by decide)).1 3
  simpa using h

/-! ## C2: Failover selection -/

/-- The first element of a priority-sorted list satisfying a predicate has
minimal priority among the satisfying elements. -/
theorem find?_priority_min {l : List PoolMember} (hs : l.Sorted prLe)
    {q : PoolMember → Bool} {m : PoolMember} (hf : l.find? q = some m) :
    ∀ x ∈ l, q x = true → m.priority ≤ x.priority := by
  induction l with
  | nil => simp at hf
  | cons a t ih =>
    rw [List.sorted_cons] at hs
    by_cases hqa : q a = true
    · rw [List.find?_cons_of_pos _ hqa, Option.some.injEq] at hf
      subst hf
      intro x hx _
      rcases List.mem_cons.mp hx with rfl | hx'
      · exact Nat.le_refl _
      · exact hs.1 x hx'
    · rw [List.find?_cons_of_neg _ (by simpa using hqa)] at hf
      intro x hx hqx
      rcases List.mem_cons.mp hx with rfl | hx'
      · exact absurd hqx hqa
      · exact ih hs.2 hf x hx' hqx

/-- The head of a priority-sorted list has minimal priority. -/
theorem head?_priority_min {l : List PoolMember} (hs : l.Sorted prLe)
    {m : PoolMember} (hh : l.head? = some m) :
    ∀ x ∈ l, m.priority ≤ x.priority := by
  cases l with
  | nil => simp at hh
  | cons a t =>
    rw [List.head?_cons, Option.some.injEq] at hh
    subst hh
    rw [List.sorted_cons] at hs
    intro x hx
    rcases List.mem_cons.mp hx with rfl | hx'
    · exact Nat.le_refl _
    · exact hs.1 x hx'

/-- C2 (amended): Under Failover, for every non-empty pool and every
HashMap iteration order `vs` of its members, `get_failover_client` returns
a member of minimal priority among the members outside the 60-second
cooldown when one exists, and a member of globally minimal priority when
every member is within cooldown.  Priority ties are broken by the position
in the stable priority-sort of `vs` — i.e. by the HashMap's unspecified
iteration order, not by the insertion order (see the counterexample). -/
theorem claim_C2 (members vs : List PoolMember) (now : Nat)
    (hperm : vs.Perm members) (hne : members ≠ []) :
    ∃ m : PoolMember, get_failover_client vs now = some m.client ∧ m ∈ members ∧
      ((∃ e ∈ members, outsideCooldown now e = true) →
        outsideCooldown now m = true ∧
          ∀ x ∈ members, outsideCooldown now x = true → m.priority ≤ x.priority) ∧
      ((∀ x ∈ members, outsideCooldown now x = false) →
        ∀ x ∈ members, m.priority ≤ x.priority) := by
  have hpermSort : (vs.insertionSort prLe).Perm members :=
    (List.perm_insertionSort prLe vs).trans hperm
  have hsorted : (vs.insertionSort prLe).Sorted prLe := List.sorted_insertionSort prLe vs
  have hmemIff : ∀ x, x ∈ vs.insertionSort prLe ↔ x ∈ members := fun x => hpermSort.mem_iff
  cases hf : (vs.insertionSort prLe).find? (fun m => outsideCooldown now m) with
  | some member =>
    refine ⟨member, by simp [get_failover_client, hf],
      (hmemIff member).mp (List.mem_of_find?_eq_some hf), ?_, ?_⟩
    · intro _
      refine ⟨by simpa using List.find?_some hf, ?_⟩
      intro x hx hqx
      exact find?_priority_min hsorted hf x ((hmemIff x).mpr hx) hqx
    · intro hall
      have := List.find?_some hf
      have hmem : member ∈ members := (hmemIff member).mp (List.mem_of_find?_eq_some hf)
      exact absurd (by simpa using this) (by simp [hall member hmem])
  | none =>
    have hne' : vs.insertionSort prLe ≠ [] := by
      intro hnil
      refine hne (List.length_eq_zero.mp ?_)
      rw [← hpermSort.length_eq, hnil]
      rfl
    cases hhead : (vs.insertionSort prLe).head? with
    | none => exact absurd (List.head?_eq_none_iff.mp hhead) hne'
    | some m =>
      refine ⟨m, by simp [get_failover_client, hf, hhead],
        (hmemIff m).mp (List.mem_of_mem_head? hhead), ?_, ?_⟩
      · rintro ⟨e, he, helig⟩
        have : ∀ x ∈ vs.insertionSort prLe, ¬ (outsideCooldown now x = true) :=
          List.find?_eq_none.mp hf
        exact absurd helig (this e ((hmemIff e).mpr he))
      · intro _
        intro x hx
        exact head?_priority_min hsorted hhead x ((hmemIff x).mpr hx)

/-- Two members with equal priority and distinct identities, both outside
cooldown — the tie-break test data. -/
def tieA : PoolMember := { priority := 1, client := { client_id := 11 }, last_error := none }

def tieB : PoolMember := { priority := 1, client := { client_id := 22 }, last_error := none }

/-- Counterexample for C2's tie-break clause.  Insertion order is
`[tieA, tieB]`.  `[tieB, tieA]` is a permutation of the stored members, so
it is a possible `values()` iteration order of the `HashMap` (Rust
specifies no iteration order).  Under that order the failover selection
returns `tieB`, not the insertion-order tie-break winner `tieA` — while
under the iteration order `[tieA, tieB]` it returns `tieA`.  Hence the
claimed insertion-order tie-break does not hold for the code. -/
theorem claim_C2_counterexample :
    ([tieB, tieA] : List PoolMember).Perm [tieA, tieB] ∧
    get_failover_client [tieB, tieA] 0 = some tieB.client ∧
    get_failover_client [tieA, tieB] 0 = some tieA.client ∧
    tieB.client ≠ tieA.client := by
  refine ⟨List.Perm.swap tieA tieB [], by decide, by decide, by decide⟩

/-- A recently failed high-priority member and a clean low-priority one —
concrete witness data for the failover claim. -/
def wfm1 : PoolMember := { priority := 1, client := { client_id := 1 }, last_error := some 100 }

def wfm2 : PoolMember := { priority := 2, client := { client_id := 2 }, last_error := none }

/-- Witness for C2: at time 110 the priority-1 member is still within the
60-second cooldown, so the returned member is eligible and of minimal
priority among eligible members. -/
theorem claim_C2_witness :
    ∃ m : PoolMember, get_failover_client [wfm1, wfm2] 110 = some m.client ∧
      m ∈ [wfm1, wfm2] ∧
      ((∃ e ∈ [wfm1, wfm2], outsideCooldown 110 e = true) →
        outsideCooldown 110 m = true ∧
          ∀ x ∈ [wfm1, wfm2], outsideCooldown 110 x = true → m.priority ≤ x.priority) ∧
      ((∀ x ∈ [wfm1, wfm2], outsideCooldown 110 x = false) →
        ∀ x ∈ [wfm1, wfm2], m.priority ≤ x.priority) :=
  claim_C2 [wfm1, wfm2] [wfm1, wfm2] 110 (List.Perm.refl _) (by decide)

/-! ## C3: Combination selection -/

theorem mem_destutter'_ne {α : Type} [DecidableEq α] {a : α} :
    ∀ (t : List α) (b : α), (a = b ∨ a ∈ t) →
      a ∈ t.destutter' (fun x y => x ≠ y) b := by
  intro t
  induction t with
  | nil =>
    intro b h
    rcases h with rfl | h
    · simp [List.destutter'_nil]
    · simp at h
  | cons c t ih =>
    intro b h
    rw [List.destutter'_cons]
    by_cases hbc : b ≠ c
    · rw [if_pos hbc]
      rcases h with rfl | h
      · exact List.mem_cons_self _ _
      · rcases List.mem_cons.mp h with rfl | h'
        · exact List.mem_cons_of_mem _ (ih _ (Or.inl rfl))
        · exact List.mem_cons_of_mem _ (ih _ (Or.inr h'))
    · rw [if_neg hbc]
      have hbceq : b = c := not_not.mp hbc
      apply ih
      rcases h with rfl | h
      · exact Or.inl rfl
      · rcases List.mem_cons.mp h with rfl | h'
        · exact Or.inl hbceq.symm
        · exact Or.inr h'

/-- `destutter (· ≠ ·)` only merges adjacent duplicates, so it preserves
membership. -/
theorem mem_destutter_ne {α : Type} [DecidableEq α] {l : List α} {a : α} :
    a ∈ l.destutter (fun x y => x ≠ y) ↔ a ∈ l := by
  constructor
  · intro h
    exact (List.destutter_sublist _ _).mem h
  · intro h
    cases l with
    | nil => simp at h
    | cons b t =>
      rw [List.destutter_cons']
      exact mem_destutter'_ne t b (by simpa using List.mem_cons.mp h)

/-- The group keys are exactly the priorities occurring among the members. -/
theorem mem_groupKeys {vs : List PoolMember} {pr : Nat} :
    pr ∈ groupKeys vs ↔ pr ∈ vs.map (fun m => m.priority) := by
  unfold groupKeys
  rw [mem_destutter_ne, List.mem_insertionSort]

/-- The group keys are sorted ascending. -/
theorem groupKeys_sorted (vs : List PoolMember) :
    (groupKeys vs).Sorted (· ≤ ·) :=
  List.Pairwise.sublist (List.destutter_sublist _ _)
    (List.sorted_insertionSort _ _)

/-- The first element of a sorted `Nat` list satisfying a predicate is
minimal among the satisfying elements. -/
theorem find?_nat_min {l : List Nat} (hs : l.Sorted (· ≤ ·))
    {q : Nat → Bool} {m : Nat} (hf : l.find? q = some m) :
    ∀ x ∈ l, q x = true → m ≤ x := by
  induction l with
  | nil => simp at hf
  | cons a t ih =>
    rw [List.sorted_cons] at hs
    by_cases hqa : q a = true
    · rw [List.find?_cons_of_pos _ hqa, Option.some.injEq] at hf
      subst hf
      intro x hx _
      rcases List.mem_cons.mp hx with rfl | hx'
      · exact Nat.le_refl _
      · exact hs.1 x hx'
    · rw [List.find?_cons_of_neg _ (by simpa using hqa)] at hf
      intro x hx hqx
      rcases List.mem_cons.mp hx with rfl | hx'
      · exact absurd hqx hqa
      · exact ih hs.2 hf x hx' hqx

/-- `min_by_key` over an iteration sequence: the result is a member of
minimal priority (the first such in the sequence). -/
theorem minByPriority_go (l : List PoolMember) :
    ∀ best : PoolMember,
      ∃ m, l.foldl
          (fun acc m => match acc with
            | none => some m
            | some best => if m.priority < best.priority then some m else some best)
          (some best) = some m ∧
        (m = best ∨ m ∈ l) ∧ m.priority ≤ best.priority ∧
        ∀ x ∈ l, m.priority ≤ x.priority := by
  induction l with
  | nil =>
    intro best
    exact ⟨best, rfl, Or.inl rfl, Nat.le_refl _, by simp⟩
  | cons a t ih =>
    intro best
    by_cases hlt : a.priority < best.priority
    · obtain ⟨m, hm, hmem, hle, hall⟩ := ih a
      refine ⟨m, by simpa [hlt] using hm, ?_, ?_, ?_⟩
      · rcases hmem with rfl | h
        · exact Or.inr (List.mem_cons_self _ _)
        · exact Or.inr (List.mem_cons_of_mem _ h)
      · exact Nat.le_trans hle (Nat.le_of_lt hlt)
      · intro x hx
        rcases List.mem_cons.mp hx with rfl | hx'
        · exact hle
        · exact hall x hx'
    · obtain ⟨m, hm, hmem, hle, hall⟩ := ih best
      refine ⟨m, by simpa [hlt] using hm, ?_, hle, ?_⟩
      · rcases hmem with rfl | h
        · exact Or.inl rfl
        · exact Or.inr (List.mem_cons_of_mem _ h)
      · intro x hx
        rcases List.mem_cons.mp hx with rfl | hx'
        · exact Nat.le_trans hle (Nat.le_of_not_lt hlt)
        · exact hall x hx'

theorem minByPriority_spec (vs : List PoolMember) (hne : vs ≠ []) :
    ∃ m, minByPriority vs = some m ∧ m ∈ vs ∧
      ∀ x ∈ vs, m.priority ≤ x.priority := by
  cases vs with
  | nil => exact absurd rfl hne
  | cons a t =>
    obtain ⟨m, hm, hmem, hle, hall⟩ := minByPriority_go t a
    refine ⟨m, by simpa [minByPriority] using hm, ?_, ?_⟩
    · rcases hmem with rfl | h
      · exact List.mem_cons_self _ _
      · exact List.mem_cons_of_mem _ h
    · intro x hx
      rcases List.mem_cons.mp hx with rfl | hx'
      · exact hle
      · exact hall x hx'

/-- C3 (amended): Under Combination, for every non-empty pool, every
HashMap iteration order `vs` of its members and every counter value `ctr`:
if some member is outside the 60-second cooldown, the code picks the
smallest priority `pr` having an eligible member and returns the eligible
member of that group at index `(ctr % total) % count` — where `total` is
the `client_order` length and `count` the group's eligible-member count
(note the double modulo; the claim's plain `ctr % count` is refuted by the
counterexample) — advancing the shared counter; if every member is within
cooldown, it returns a member of globally minimal priority (the first in
iteration order) without advancing the counter. -/
theorem claim_C3 (members vs : List PoolMember) (now ctr total : Nat)
    (hperm : vs.Perm members) (_htotal : total = members.length)
    (hne : members ≠ []) :
    ((∃ e ∈ members, outsideCooldown now e = true) →
      ∃ pr m,
        get_combination_client vs now ctr total = (some m.client, ctr + 1) ∧
        ((groupMembers vs pr).filter (outsideCooldown now)).get?
            ((ctr % total) % ((groupMembers vs pr).filter (outsideCooldown now)).length)
          = some m ∧
        m ∈ members ∧ outsideCooldown now m = true ∧ m.priority = pr ∧
        (∀ x ∈ members, outsideCooldown now x = true → pr ≤ x.priority)) ∧
    ((∀ x ∈ members, outsideCooldown now x = false) →
      ∃ m, get_combination_client vs now ctr total = (some m.client, ctr) ∧
        m ∈ members ∧ ∀ x ∈ members, m.priority ≤ x.priority) := by
  have hmemvs : ∀ x, x ∈ vs ↔ x ∈ members := fun x => hperm.mem_iff
  constructor
  · rintro ⟨e, he, helig⟩
    have hevs : e ∈ vs := (hmemvs e).mpr he
    have hkey : e.priority ∈ groupKeys vs :=
      mem_groupKeys.mpr (List.mem_map.mpr ⟨e, hevs, rfl⟩)
    have hpred : (!((groupMembers vs e.priority).filter
        (outsideCooldown now)).isEmpty) = true := by
      have hmem : e ∈ (groupMembers vs e.priority).filter (outsideCooldown now) :=
        List.mem_filter.mpr ⟨List.mem_filter.mpr ⟨hevs, by simp⟩, helig⟩
      have hne' : (groupMembers vs e.priority).filter (outsideCooldown now) ≠ [] := by
        intro hnil
        rw [hnil] at hmem
        simp at hmem
      simpa [List.isEmpty_iff] using hne'
    cases hfind : (groupKeys vs).find?
        (fun pr => !((groupMembers vs pr).filter (outsideCooldown now)).isEmpty) with
    | none =>
      exact absurd hpred (by
        have := List.find?_eq_none.mp hfind e.priority hkey
        simpa using this)
    | some pr =>
      have hprpred : (!((groupMembers vs pr).filter
          (outsideCooldown now)).isEmpty) = true := by
        simpa using List.find?_some hfind
      have havailne : (groupMembers vs pr).filter (outsideCooldown now) ≠ [] := by
        simpa [List.isEmpty_iff] using hprpred
      have hlen : 0 < ((groupMembers vs pr).filter (outsideCooldown now)).length :=
        List.length_pos.mpr havailne
      have hidx : (ctr % total) % ((groupMembers vs pr).filter
          (outsideCooldown now)).length
          < ((groupMembers vs pr).filter (outsideCooldown now)).length :=
        Nat.mod_lt _ hlen
      obtain ⟨m, hm⟩ : ∃ m, ((groupMembers vs pr).filter (outsideCooldown now)).get?
          ((ctr % total) % ((groupMembers vs pr).filter (outsideCooldown now)).length)
          = some m := ⟨_, List.get?_eq_get hidx⟩
      have hmmem : m ∈ (groupMembers vs pr).filter (outsideCooldown now) :=
        List.get?_mem hm
      have hmgrp := List.mem_filter.mp hmmem
      have hmvs := List.mem_filter.mp hmgrp.1
      refine ⟨pr, m, ?_, hm, (hmemvs m).mp hmvs.1, hmgrp.2, by simpa using hmvs.2, ?_⟩
      · unfold get_combination_client
        rw [hfind]
        simp only [hm, Option.map_some']
      · intro x hx hxelig
        have hxvs : x ∈ vs := (hmemvs x).mpr hx
        have hxkey : x.priority ∈ groupKeys vs :=
          mem_groupKeys.mpr (List.mem_map.mpr ⟨x, hxvs, rfl⟩)
        have hxpred : (!((groupMembers vs x.priority).filter
            (outsideCooldown now)).isEmpty) = true := by
          have hxmem : x ∈ (groupMembers vs x.priority).filter (outsideCooldown now) :=
            List.mem_filter.mpr ⟨List.mem_filter.mpr ⟨hxvs, by simp⟩, hxelig⟩
          have hxne : (groupMembers vs x.priority).filter (outsideCooldown now) ≠ [] := by
            intro hnil
            rw [hnil] at hxmem
            simp at hxmem
          simpa [List.isEmpty_iff] using hxne
        exact find?_nat_min (groupKeys_sorted vs) hfind x.priority hxkey hxpred
  · intro hall
    have hnone : (groupKeys vs).find?
        (fun pr => !((groupMembers vs pr).filter (outsideCooldown now)).isEmpty)
        = none := by
      rw [List.find?_eq_none]
      intro pr _
      simp only [Bool.not_eq_true', Bool.not_eq_false, List.isEmpty_iff]
      rw [List.filter_eq_nil_iff]
      intro y hy
      have hyvs := (List.mem_filter.mp hy).1
      simp [hall y ((hmemvs y).mp hyvs)]
    have hvsne : vs ≠ [] := by
      intro hnil
      refine hne (List.length_eq_zero.mp ?_)
      rw [← hperm.length_eq, hnil]
      rfl
    obtain ⟨m, hm, hmem, hmin⟩ := minByPriority_spec vs hvsne
    refine ⟨m, ?_, (hmemvs m).mp hmem, fun x hx => hmin x ((hmemvs x).mpr hx)⟩
    unfold get_combination_client
    rw [hnone, hm]
    rfl

/-- C3's claimed selection rule, modelled from the claim's words: ascending
priority groups, and in the first group with an eligible member the index
is the shared counter modulo *that group's* eligible-member count (no outer
modulo by the total member count). -/
def combinationSpecSelect (members : List PoolMember) (now ctr : Nat) :
    Option LlmClient :=
  match (groupKeys members).find?
      (fun pr => !((groupMembers members pr).filter (outsideCooldown now)).isEmpty) with
  | some pr =>
    let avail := (groupMembers members pr).filter (outsideCooldown now)
    (avail.get? (ctr % avail.length)).map (fun m => m.client)
  | none => (minByPriority members).map (fun m => m.client)

/-- Combination test data: two eligible priority-1 members and one
priority-2 member, with distinct identities, listed in insertion order. -/
def cm1 : PoolMember := { priority := 1, client := { client_id := 101 }, last_error := none }

def cm2 : PoolMember := { priority := 1, client := { client_id := 102 }, last_error := none }

def cm3 : PoolMember := { priority := 2, client := { client_id := 103 }, last_error := none }

/-- Counterexample for C3: with 3 members, the eligible priority-1 group of
size 2, and counter 3, the code computes index `(3 % 3) % 2 = 0` and
returns the first group member, while the claim's `counter mod
eligible-count` gives `3 % 2 = 1`, the second member.  The iteration order
here is the insertion order itself, so the divergence is purely the double
modulo. -/
theorem claim_C3_counterexample :
    get_combination_client [cm1, cm2, cm3] 0 3 3 = (some cm1.client, 4) ∧
    combinationSpecSelect [cm1, cm2, cm3] 0 3 = some cm2.client ∧
    cm1.client ≠ cm2.client := by
  refine ⟨by decide, by decide, by decide⟩

/-- Witness for C3: the eligible case of the theorem at the concrete data
of the counterexample. -/
theorem claim_C3_witness :
    ∃ pr m,
      get_combination_client [cm1, cm2, cm3] 0 3 3 = (some m.client, 3 + 1) ∧
      ((groupMembers [cm1, cm2, cm3] pr).filter (outsideCooldown 0)).get?
          ((3 % 3) % ((groupMembers [cm1, cm2, cm3] pr).filter (outsideCooldown 0)).length)
        = some m ∧
      m ∈ [cm1, cm2, cm3] ∧ outsideCooldown 0 m = true ∧ m.priority = pr ∧
      (∀ x ∈ [cm1, cm2, cm3], outsideCooldown 0 x = true → pr ≤ x.priority) :=
  (claim_C3 [cm1, cm2, cm3] [cm1, cm2, cm3] 0 3 3 (List.Perm.refl _) (by decide)
    (by decide)).1 ⟨cm1, by decide, by decide⟩

/-! ## C5: Error classification -/

/-- C5 (amended): `from_error_string` lower-cases the input and classifies
by substring: the rate-limit list is as the claim states; the server-error
list is "500", "502", "503", "504" (the code does *not* check "501"),
"internal server error", "bad gateway", "service unavailable",
"gateway timeout", and additionally "http status server error"; everything
else is the non-retryable `Chat` catch-all; and `is_retryable` holds
exactly for the `RateLimit` and `ServerError` classifications. -/
theorem claim_C5 (s : String) :
    (from_error_string s = .RateLimit s ↔
      rateLimitPatterns.any (fun pat => containsPat (lowercase s) pat) = true) ∧
    (from_error_string s = .ServerError s ↔
      (rateLimitPatterns.any (fun pat => containsPat (lowercase s) pat) = false ∧
        serverErrorPatterns.any (fun pat => containsPat (lowercase s) pat) = true)) ∧
    (from_error_string s = .Chat s ↔
      (rateLimitPatterns.any (fun pat => containsPat (lowercase s) pat) = false ∧
        serverErrorPatterns.any (fun pat => containsPat (lowercase s) pat) = false)) ∧
    ((from_error_string s).is_retryable = true ↔
      (rateLimitPatterns.any (fun pat => containsPat (lowercase s) pat) = true ∨
        serverErrorPatterns.any (fun pat => containsPat (lowercase s) pat) = true)) ∧
    (∀ msg, (LlmError.RateLimit msg).is_retryable = true ∧
      (LlmError.ServerError msg).is_retryable = true ∧
      (LlmError.Chat msg).is_retryable = false ∧
      (LlmError.Build msg).is_retryable = false ∧
      (LlmError.ResponseParsing msg).is_retryable = false) := by
  unfold from_error_string
  by_cases hr : rateLimitPatterns.any (fun pat => containsPat (lowercase s) pat) = true
  · simp [hr, LlmError.is_retryable]
  · rw [Bool.not_eq_true] at hr
    by_cases hs : serverErrorPatterns.any (fun pat => containsPat (lowercase s) pat) = true
    · simp [hr, hs, LlmError.is_retryable]
    · rw [Bool.not_eq_true] at hs
      simp [hr, hs, LlmError.is_retryable]

/-- Counterexample for C5: the code does not treat "501" as a server error
(the claim's list includes it), and it does treat "http status server
error" as one (absent from the claim's list).  Both errors are concrete
strings on which the code and the claim's classifier disagree. -/
theorem claim_C5_counterexample :
    from_error_string "HTTP 501 Not Implemented"
        = .Chat "HTTP 501 Not Implemented" ∧
    claimClassifierC5 "HTTP 501 Not Implemented"
        = .ServerError "HTTP 501 Not Implemented" ∧
    (from_error_string "HTTP 501 Not Implemented").is_retryable = false ∧
    from_error_string "HTTP status server error for url"
        = .ServerError "HTTP status server error for url" ∧
    claimClassifierC5 "HTTP status server error for url"
        = .Chat "HTTP status server error for url" := by
  refine ⟨by decide, by decide, by decide, by decide, by decide⟩

/-- C6: the retry engine, assuming the configured max elapsed time is never
exhausted (`backoff` always yields a delay): with `max_retries = 2` and an
operation failing with a retryable (RateLimited) error on every attempt,
exactly 3 attempts are performed (initial plus 2 retries), 2 backoff
sleeps occur, and the error is returned; with an operation whose first
failure is non-retryable, exactly 1 attempt is performed, no backoff sleep
occurs, and that error is returned immediately. -/
theorem claim_C6 {T : Type} :
    (∀ (op : Nat → Except LlmError T) (e : LlmError) (backoff : Nat → Option Nat),
      (∀ i, op i = .error e) → e.is_retryable = true →
      (∀ j, (backoff j).isSome) →
      get_structured_response_with_retry op 2 backoff = (.error e, 3, 2)) ∧
    (∀ (op : Nat → Except LlmError T) (e : LlmError) (max_retries : Nat)
        (backoff : Nat → Option Nat),
      op 0 = .error e → e.is_retryable = false →
      get_structured_response_with_retry op max_retries backoff
        = (.error e, 1, 0)) := by
  constructor
  · intro op e backoff hop hret hb
    obtain ⟨d0, hd0⟩ := Option.isSome_iff_exists.mp (hb 0)
    obtain ⟨d1, hd1⟩ := Option.isSome_iff_exists.mp (hb 1)
    unfold get_structured_response_with_retry
    simp [retry_go, hop, hret, hd0, hd1]
  · intro op e max_retries backoff hop0 hret
    unfold get_structured_response_with_retry
    simp [retry_go, hop0, hret]

/-- Witness for C6: a concrete always-rate-limited operation under
`max_retries = 2`, and a concrete first-attempt `Chat` failure. -/
theorem claim_C6_witness :
    get_structured_response_with_retry (T := Nat)
        (fun _ => .error (.RateLimit "HTTP 429 Too Many Requests")) 2
        (fun _ => some 1)
      = (.error (.RateLimit "HTTP 429 Too Many Requests"), 3, 2) ∧
    get_structured_response_with_retry (T := Nat)
        (fun _ => .error (.Chat "Invalid API key")) 5 (fun _ => some 1)
      = (.error (.Chat "Invalid API key"), 1, 0) :=
  ⟨(claim_C6 (T := Nat)).1 _ _ _ (fun _ => rfl) rfl (fun _ => rfl),
   (claim_C6 (T := Nat)).2 _ _ 5 _ rfl rfl⟩

/-! ## JSON values and the Simplified Schema
(src/src/llm_interface/simplified_schema.rs)

`serde_json::Value` is modelled by `Json`; object entries are kept as an
association list in source order.  Numbers are modelled as integers (the
claims never touch fractional values; `as_u64` requires non-negativity,
`as_f64` accepts any number). -/

inductive Json where
  | null
  | bool (b : Bool)
  | num (n : Int)
  | str (s : String)
  | arr (items : List Json)
  | obj (entries : List (String × Json))
  deriving Repr

/-- `Map::get` on a JSON object's entries (first match; serde maps have
unique keys). -/
def jGet (kvs : List (String × Json)) (k : String) : Option Json :=
  (kvs.find? (fun kv => kv.1 = k)).map Prod.snd

def Json.asObject : Json → Option (List (String × Json))
  | .obj kvs => some kvs
  | _ => none

def Json.asStr : Json → Option String
  | .str s => some s
  | _ => none

def Json.asArray : Json → Option (List Json)
  | .arr xs => some xs
  | _ => none

def Json.asBool : Json → Option Bool
  | .bool b => some b
  | _ => none

def Json.asU64 : Json → Option Int
  | .num n => if 0 ≤ n then some n else none
  | _ => none

def Json.asF64 : Json → Option Int
  | .num n => some n
  | _ => none

inductive SchemaType where
  | string
  | number
  | integer
  | boolean
  | array
  | object
  deriving DecidableEq, Repr

/-- The non-recursive fields of `SimplifiedSchema` (simplified_schema.rs:17).
The three recursive fields (`properties`, `any_of`, `items`) live in the
`SimpSchema` constructor alongside this record, because Lean structures
cannot be recursive; every Rust field maps one-to-one. -/
structure SimpFlat where
  schema_type : SchemaType
  format : Option String
  title : Option String
  description : Option String
  nullable : Option Bool
  enum_values : Option (List String)
  max_items : Option String
  min_items : Option String
  required : Option (List String)
  min_properties : Option String
  max_properties : Option String
  min_length : Option String
  max_length : Option String
  pattern : Option String
  example_ : Option Json
  property_ordering : Option (List String)
  default : Option Json
  minimum : Option Int
  maximum : Option Int
  deriving Repr

inductive SimpSchema where
  | mk (flat : SimpFlat)
      (properties : Option (List (String × SimpSchema)))
      (any_of : Option (List SimpSchema))
      (items : Option SimpSchema)
  deriving Repr

def SimpSchema.flat : SimpSchema → SimpFlat
  | .mk f _ _ _ => f

def SimpSchema.properties : SimpSchema → Option (List (String × SimpSchema))
  | .mk _ p _ _ => p

def SimpSchema.any_of : SimpSchema → Option (List SimpSchema)
  | .mk _ _ a _ => a

def SimpSchema.items : SimpSchema → Option SimpSchema
  | .mk _ _ _ i => i

def SimpSchema.schema_type (g : SimpSchema) : SchemaType := g.flat.schema_type

def SimpSchema.format (g : SimpSchema) : Option String := g.flat.format

def SimpSchema.enum_values (g : SimpSchema) : Option (List String) := g.flat.enum_values

def SimpSchema.description (g : SimpSchema) : Option String := g.flat.description

def SimpSchema.required (g : SimpSchema) : Option (List String) := g.flat.required

/-- The all-`None` node with the given `type` (the record literal at
simplified_schema.rs:217). -/
def SimpSchema.base (t : SchemaType) : SimpSchema :=
  .mk { schema_type := t, format := none, title := none, description := none,
        nullable := none, enum_values := none, max_items := none,
        min_items := none, required := none, min_properties := none,
        max_properties := none, min_length := none, max_length := none,
        pattern := none, example_ := none, property_ordering := none,
        default := none, minimum := none, maximum := none }
      none none none

def SimpSchema.set_flat (g : SimpSchema) (f : SimpFlat → SimpFlat) : SimpSchema :=
  match g with
  | .mk fl p a i => .mk (f fl) p a i

def SimpSchema.set_format (g : SimpSchema) (v : Option String) : SimpSchema :=
  g.set_flat (fun fl => { fl with format := v })

def SimpSchema.set_title (g : SimpSchema) (v : Option String) : SimpSchema :=
  g.set_flat (fun fl => { fl with title := v })

def SimpSchema.set_description (g : SimpSchema) (v : Option String) : SimpSchema :=
  g.set_flat (fun fl => { fl with description := v })

def SimpSchema.set_nullable (g : SimpSchema) (v : Option Bool) : SimpSchema :=
  g.set_flat (fun fl => { fl with nullable := v })

def SimpSchema.set_enum_values (g : SimpSchema) (v : Option (List String)) : SimpSchema :=
  g.set_flat (fun fl => { fl with enum_values := v })

def SimpSchema.set_max_items (g : SimpSchema) (v : Option String) : SimpSchema :=
  g.set_flat (fun fl => { fl with max_items := v })

def SimpSchema.set_min_items (g : SimpSchema) (v : Option String) : SimpSchema :=
  g.set_flat (fun fl => { fl with min_items := v })

def SimpSchema.set_required (g : SimpSchema) (v : Option (List String)) : SimpSchema :=
  g.set_flat (fun fl => { fl with required := v })

def SimpSchema.set_min_properties (g : SimpSchema) (v : Option String) : SimpSchema :=
  g.set_flat (fun fl => { fl with min_properties := v })

def SimpSchema.set_max_properties (g : SimpSchema) (v : Option String) : SimpSchema :=
  g.set_flat (fun fl => { fl with max_properties := v })

def SimpSchema.set_min_length (g : SimpSchema) (v : Option String) : SimpSchema :=
  g.set_flat (fun fl => { fl with min_length := v })

def SimpSchema.set_max_length (g : SimpSchema) (v : Option String) : SimpSchema :=
  g.set_flat (fun fl => { fl with max_length := v })

def SimpSchema.set_pattern (g : SimpSchema) (v : Option String) : SimpSchema :=
  g.set_flat (fun fl => { fl with pattern := v })

def SimpSchema.set_example (g : SimpSchema) (v : Option Json) : SimpSchema :=
  g.set_flat (fun fl => { fl with example_ := v })

def SimpSchema.set_default (g : SimpSchema) (v : Option Json) : SimpSchema :=
  g.set_flat (fun fl => { fl with default := v })

def SimpSchema.set_minimum (g : SimpSchema) (v : Option Int) : SimpSchema :=
  g.set_flat (fun fl => { fl with minimum := v })

def SimpSchema.set_maximum (g : SimpSchema) (v : Option Int) : SimpSchema :=
  g.set_flat (fun fl => { fl with maximum := v })

def SimpSchema.set_properties (g : SimpSchema)
    (v : Option (List (String × SimpSchema))) : SimpSchema :=
  match g with
  | .mk fl _ a i => .mk fl v a i

def SimpSchema.set_items (g : SimpSchema) (v : Option SimpSchema) : SimpSchema :=
  match g with
  | .mk fl p a _ => .mk fl p a v

inductive ConversionError where
  | UnsupportedType (s : String)
  | InvalidSchema (s : String)
  | MissingField (s : String)
  | RefResolutionError (s : String)
  deriving DecidableEq, Repr

/-- Insert into the Definition Table (HashMap): overwrite or append. -/
def defInsert (m : List (String × Json)) (k : String) (v : Json) :
    List (String × Json) :=
  if m.any (fun kv => kv.1 = k) then
    m.map (fun kv => if kv.1 = k then (k, v) else kv)
  else
    m ++ [(k, v)]

/-- `JsonSchemaConverter::extract_definitions`: harvest `$defs` then
`definitions` from the top-level object into the table. -/
def extract_definitions (schema : Json) : List (String × Json) :=
  match schema.asObject with
  | none => []
  | some obj =>
    let d1 := match (jGet obj "$defs").bind Json.asObject with
      | some defs => defs
      | none => []
    let d2 := match (jGet obj "definitions").bind Json.asObject with
      | some defs => defs
      | none => []
    d2.foldl (fun m kv => defInsert m kv.1 kv.2)
      (d1.foldl (fun m kv => defInsert m kv.1 kv.2) [])

/-- `str::starts_with`, via the underlying character lists (kept
kernel-reducible, unlike `String.startsWith`). -/
def str_starts_with (s pre : String) : Bool :=
  pre.toList.isPrefixOf s.toList

/-- `str::split('/')`, via the underlying character lists (kept
kernel-reducible, unlike `String.splitOn`). -/
def split_slash_chars : List Char → List (List Char)
  | [] => [[]]
  | x :: rest =>
    match split_slash_chars rest with
    | [] => [[]]
    | grp :: groups =>
      if x = '/' then [] :: grp :: groups else (x :: grp) :: groups

def split_slash (s : String) : List String :=
  (split_slash_chars s.toList).map (fun l => String.mk l)

/-- `JsonSchemaConverter::resolve_ref`: only `#/$defs/<name>` and
`#/definitions/<name>` forms resolve (`split('/')` puts `#` first). -/
def resolve_ref (defs : List (String × Json)) (ref_path : String) :
    Except ConversionError Json :=
  let failure : Except ConversionError Json :=
    .error (.RefResolutionError ("Could not resolve reference: " ++ ref_path))
  if str_starts_with ref_path "#/" then
    match split_slash ref_path with
    | _ :: def_type :: def_name :: _ =>
      if def_type = "$defs" ∨ def_type = "definitions" then
        match (defs.find? (fun kv => kv.1 = def_name)).map Prod.snd with
        | some definition => .ok definition
        | none => failure
      else failure
    | _ => failure
  else failure

mutual

/-- `JsonSchemaConverter::clean_schema`: drop `$`-prefixed keys (without
recursing into their values) and clean the rest recursively. -/
def clean_schema : Json → Json
  | .obj kvs => .obj (clean_entries kvs)
  | .arr xs => .arr (clean_list xs)
  | j => j

def clean_entries : List (String × Json) → List (String × Json)
  | [] => []
  | (k, v) :: rest =>
    if str_starts_with k "$" then clean_entries rest
    else (k, clean_schema v) :: clean_entries rest

def clean_list : List Json → List Json
  | [] => []
  | x :: rest => clean_schema x :: clean_list rest

end

/-- `JsonSchemaConverter::determine_type`. -/
def determine_type (schema : List (String × Json)) :
    Except ConversionError SchemaType :=
  match jGet schema "type" with
  | some (.str type_str) =>
    match type_str with
    | "string" => .ok .string
    | "number" => .ok .number
    | "integer" => .ok .integer
    | "boolean" => .ok .boolean
    | "array" => .ok .array
    | "object" => .ok .object
    | "null" => .error (.UnsupportedType "null type not directly supported")
    | other => .error (.UnsupportedType other)
  | some (.arr types) =>
    match (types.filterMap Json.asStr).filter (fun s => s ≠ "null") with
    | [t] =>
      match t with
      | "string" => .ok .string
      | "number" => .ok .number
      | "integer" => .ok .integer
      | "boolean" => .ok .boolean
      | "array" => .ok .array
      | "object" => .ok .object
      | other => .error (.UnsupportedType other)
    | _ => .error (.UnsupportedType "Multiple non-null types not supported")
  | some _ => .error (.InvalidSchema "Type must be string or array")
  | none =>
    if (jGet schema "properties").isSome ∨ (jGet schema "additionalProperties").isSome then
      .ok .object
    else if (jGet schema "items").isSome then .ok .array
    else if (jGet schema "enum").isSome then .ok .string
    else if schema.isEmpty then
      .error (.InvalidSchema
        "Empty schema after cleaning - this might be a $ref-only schema that wasn't resolved")
    else .error (.MissingField "type")

/-- `JsonSchemaConverter::convert_string_fields`. -/
def convert_string_fields (schema : List (String × Json)) (g0 : SimpSchema) :
    Except ConversionError SimpSchema := do
  let g1 := match (jGet schema "format").bind Json.asStr with
    | some "date-time" => g0.set_format (some "date-time")
    | some "enum" => g0.set_format (some "enum")
    | _ => g0
  let g2 ← match (jGet schema "enum").bind Json.asArray with
    | some enum_values => do
      let strs ← enum_values.mapM (fun v =>
        match v.asStr with
        | some s => Except.ok s
        | none => Except.error (ConversionError.InvalidSchema
            "Enum values must be strings"))
      Except.ok ((g1.set_enum_values (some strs)).set_format (some "enum"))
    | none => Except.ok g1
  let g3 := match (jGet schema "minLength").bind Json.asU64 with
    | some n => g2.set_min_length (some (toString n))
    | none => g2
  let g4 := match (jGet schema "maxLength").bind Json.asU64 with
    | some n => g3.set_max_length (some (toString n))
    | none => g3
  let g5 := match (jGet schema "pattern").bind Json.asStr with
    | some p => g4.set_pattern (some p)
    | none => g4
  return g5

/-- `JsonSchemaConverter::convert_number_fields`. -/
def convert_number_fields (schema : List (String × Json)) (g0 : SimpSchema) :
    Except ConversionError SimpSchema := do
  let g1 := match (jGet schema "format").bind Json.asStr with
    | some f =>
      if (f = "float" ∨ f = "double") ∧ g0.schema_type = .number then
        g0.set_format (some f)
      else if (f = "int32" ∨ f = "int64") ∧ g0.schema_type = .integer then
        g0.set_format (some f)
      else g0
    | none => g0
  let g2 := match (jGet schema "minimum").bind Json.asF64 with
    | some n => g1.set_minimum (some n)
    | none => g1
  let g3 := match (jGet schema "maximum").bind Json.asF64 with
    | some n => g2.set_maximum (some n)
    | none => g2
  return g3

/-- The inner loop of `flatten_one_of` over one variant's `enum` array:
push string values, stop with `false` at the first non-string. -/
def enum_strings_scan : List Json → List String × Bool
  | [] => ([], true)
  | v :: rest =>
    match v.asStr with
    | some s =>
      let p := enum_strings_scan rest
      (s :: p.1, p.2)
    | none => ([], false)

/-- The variant loop of `flatten_one_of`: accumulate all enum values while
every variant seen is a string enum; stop with `false` at the first
variant that is not. -/
def collect_string_enums : List Json → List String × Bool
  | [] => ([], true)
  | variant :: rest =>
    match variant.asObject with
    | some vobj =>
      match (jGet vobj "type").bind Json.asStr with
      | some t =>
        if t = "string" then
          match (jGet vobj "enum").bind Json.asArray with
          | some enum_vals =>
            let p := enum_strings_scan enum_vals
            if p.2 then
              let q := collect_string_enums rest
              (p.1 ++ q.1, q.2)
            else (p.1, false)
          | none => ([], false)
        else ([], false)
      | none => ([], false)
    | none => ([], false)

/-- `required` field conversion (the `mapM` inside
`convert_object_fields`). -/
def required_strings (required : List Json) :
    Except ConversionError (List String) :=
  required.mapM (fun v =>
    match v.asStr with
    | some s => Except.ok s
    | none => Except.error (ConversionError.InvalidSchema
        "Required field names must be strings"))

/-- `JsonSchemaConverter::flatten_one_of`: merge all-string-enum variants
into one String/enum node (copying the parent's `description`), otherwise
convert only the first variant.  `recurse` is the recursive
`self.convert_schema` call (carrying the Definition Table and one level
less fuel). -/
def flatten_one_of (recurse : Json → Except ConversionError SimpSchema)
    (one_of : List Json) (parent_obj : List (String × Json)) :
    Except ConversionError SimpSchema :=
  if one_of.isEmpty then .error (.InvalidSchema "Empty oneOf array")
  else
    let scan := collect_string_enums one_of
    if scan.2 && !scan.1.isEmpty then
      let merged := ((SimpSchema.base .string).set_format
        (some "enum")).set_enum_values (some scan.1)
      let merged := match (jGet parent_obj "description").bind Json.asStr with
        | some d => merged.set_description (some d)
        | none => merged
      .ok merged
    else
      recurse (one_of.headD .null)

/-- `JsonSchemaConverter::flatten_all_of`: a single entry converts
directly; otherwise the first object entry without `$ref`, else the first
entry. -/
def flatten_all_of (recurse : Json → Except ConversionError SimpSchema)
    (all_of : List Json) (_parent_obj : List (String × Json)) :
    Except ConversionError SimpSchema :=
  if all_of.isEmpty then .error (.InvalidSchema "Empty allOf array")
  else if all_of.length = 1 then recurse (all_of.headD .null)
  else
    match all_of.find? (fun s =>
        match s.asObject with
        | some o => !(jGet o "$ref").isSome
        | none => false) with
    | some s => recurse s
    | none => recurse (all_of.headD .null)

/-- `JsonSchemaConverter::flatten_any_of`: identical to `flatten_one_of`. -/
def flatten_any_of (recurse : Json → Except ConversionError SimpSchema)
    (any_of : List Json) (parent_obj : List (String × Json)) :
    Except ConversionError SimpSchema :=
  flatten_one_of recurse any_of parent_obj

/-- `JsonSchemaConverter::convert_array_fields` (items come from the
original, un-cleaned object so that `$ref` survives). -/
def convert_array_fields (recurse : Json → Except ConversionError SimpSchema)
    (schema : List (String × Json)) (g0 : SimpSchema) :
    Except ConversionError SimpSchema := do
  let g1 ← match jGet schema "items" with
    | some items =>
      match recurse items with
      | .ok converted_items => Except.ok (g0.set_items (some converted_items))
      | .error e => Except.error e
    | none => Except.ok g0
  let g2 := match (jGet schema "minItems").bind Json.asU64 with
    | some n => g1.set_min_items (some (toString n))
    | none => g1
  let g3 := match (jGet schema "maxItems").bind Json.asU64 with
    | some n => g2.set_max_items (some (toString n))
    | none => g2
  return g3

/-- The property-conversion loop inside `convert_object_fields`
(simplified_schema.rs:582-585), kept in the source entry order. -/
def convert_props (recurse : Json → Except ConversionError SimpSchema) :
    List (String × Json) → Except ConversionError (List (String × SimpSchema))
  | [] => Except.ok []
  | (k, v) :: rest =>
    match recurse v with
    | .ok c =>
      match convert_props recurse rest with
      | .ok r => Except.ok ((k, c) :: r)
      | .error e => Except.error e
    | .error e => Except.error e

/-- `JsonSchemaConverter::convert_object_fields`. -/
def convert_object_fields (recurse : Json → Except ConversionError SimpSchema)
    (schema : List (String × Json)) (g0 : SimpSchema) :
    Except ConversionError SimpSchema := do
  let g1 ← match (jGet schema "properties").bind Json.asObject with
    | some properties =>
      match convert_props recurse properties with
      | .ok converted_properties =>
        Except.ok (g0.set_properties (some converted_properties))
      | .error e => Except.error e
    | none => Except.ok g0
  let g2 ← match (jGet schema "required").bind Json.asArray with
    | some required =>
      match required_strings required with
      | .ok strs => Except.ok (g1.set_required (some strs))
      | .error e => Except.error e
    | none => Except.ok g1
  let g3 := match (jGet schema "minProperties").bind Json.asU64 with
    | some n => g2.set_min_properties (some (toString n))
    | none => g2
  let g4 := match (jGet schema "maxProperties").bind Json.asU64 with
    | some n => g3.set_max_properties (some (toString n))
    | none => g3
  return g4

/-- The tail of `convert_schema` after the `$ref`/`oneOf`/`allOf`/`anyOf`
dispatch (simplified_schema.rs:203-285): clean, determine the type, set
the common fields, then the type-specific fields. -/
def convert_plain (recurse : Json → Except ConversionError SimpSchema)
    (schema : Json) : Except ConversionError SimpSchema := do
  let cleaned := clean_schema schema
  let schema_obj ← match cleaned.asObject with
    | some o => Except.ok o
    | none => Except.error (ConversionError.InvalidSchema "Schema must be an object")
  let original_schema_obj ← match schema.asObject with
    | some o => Except.ok o
    | none => Except.error (ConversionError.InvalidSchema
        "Original schema must be an object")
  let schema_type ← determine_type schema_obj
  let g := SimpSchema.base schema_type
  let g := match (jGet schema_obj "title").bind Json.asStr with
    | some t => g.set_title (some t)
    | none => g
  let g := match (jGet schema_obj "description").bind Json.asStr with
    | some d => g.set_description (some d)
    | none => g
  let g := match jGet schema_obj "example" with
    | some e => g.set_example (some e)
    | none => g
  let g := match jGet schema_obj "default" with
    | some d => g.set_default (some d)
    | none => g
  let g := match (jGet schema_obj "nullable").bind Json.asBool with
    | some b => g.set_nullable (some b)
    | none => g
  match schema_type with
  | .string => convert_string_fields schema_obj g
  | .number => convert_number_fields schema_obj g
  | .integer => convert_number_fields schema_obj g
  | .array => convert_array_fields recurse original_schema_obj g
  | .object => convert_object_fields recurse original_schema_obj g
  | .boolean => Except.ok g

/-- `JsonSchemaConverter::convert_schema`.  `fuel` bounds the recursion
depth: the Rust function recurses unboundedly (and would overflow the
stack on a cyclic `$ref`); every theorem below either supplies ample fuel
or holds for all fuel.  The recursion is structural on `fuel`; the
helpers receive the one-level-deeper conversion as `recurse`. -/
def convert_schema (defs : List (String × Json)) :
    Nat → Json → Except ConversionError SimpSchema
  | 0, _ => .error (.InvalidSchema "recursion limit exceeded")
  | fuel + 1, schema =>
    match schema.asObject with
    | some obj =>
      match (jGet obj "$ref").bind Json.asStr with
      | some ref_path =>
        match resolve_ref defs ref_path with
        | .ok resolved => convert_schema defs fuel resolved
        | .error e => .error e
      | none =>
        match (jGet obj "oneOf").bind Json.asArray with
        | some one_of =>
          flatten_one_of (fun j => convert_schema defs fuel j) one_of obj
        | none =>
          match (jGet obj "allOf").bind Json.asArray with
          | some all_of =>
            flatten_all_of (fun j => convert_schema defs fuel j) all_of obj
          | none =>
            match (jGet obj "anyOf").bind Json.asArray with
            | some any_of =>
              flatten_any_of (fun j => convert_schema defs fuel j) any_of obj
            | none => convert_plain (fun j => convert_schema defs fuel j) schema
    | none => convert_plain (fun j => convert_schema defs fuel j) schema

/-- `JsonSchemaConverter::convert`: build the Definition Table from the
top-level document, then convert. -/
def convert (json_schema : Json) (fuel : Nat) :
    Except ConversionError SimpSchema :=
  convert_schema (extract_definitions json_schema) fuel json_schema

/-! ## C7: oneOf/anyOf flattening -/

/-- The per-variant check performed by `flatten_one_of`'s loop: an object
whose `type` is the string `"string"` and whose `enum` is an array of
strings.  (The loop inspects nothing else — in particular a variant may
additionally carry `$ref` or any other keys and still pass.) -/
def is_code_string_enum (variant : Json) : Bool :=
  match variant.asObject with
  | some vobj =>
    match (jGet vobj "type").bind Json.asStr with
    | some t =>
      if t = "string" then
        match (jGet vobj "enum").bind Json.asArray with
        | some enum_vals => (enum_strings_scan enum_vals).2
        | none => false
      else false
    | none => false
  | none => false

/-- The string enum values a variant contributes to the merge. -/
def enum_values_of (variant : Json) : List String :=
  match variant.asObject with
  | some vobj =>
    match (jGet vobj "enum").bind Json.asArray with
    | some enum_vals => (enum_strings_scan enum_vals).1
    | none => []
  | none => []

/-- On an all-string enum array the inner loop collects exactly the string
values. -/
theorem enum_strings_scan_all (vals : List Json)
    (h : (enum_strings_scan vals).2 = true) :
    (enum_strings_scan vals).1 = vals.filterMap Json.asStr := by
  induction vals with
  | nil => rfl
  | cons v rest ih =>
    cases hv : v.asStr with
    | none => simp [enum_strings_scan, hv] at h
    | some sv =>
      have h' : (enum_strings_scan rest).2 = true := by
        simpa [enum_strings_scan, hv] using h
      simp [enum_strings_scan, hv, List.filterMap_cons, ih h']

/-- When every variant passes the code's string-enum check, the variant
loop accumulates all enum values in branch order and ends with the flag
set. -/
theorem collect_string_enums_all (one_of : List Json)
    (h : ∀ v ∈ one_of, is_code_string_enum v = true) :
    collect_string_enums one_of = (((one_of.map enum_values_of).join), true) := by
  induction one_of with
  | nil => rfl
  | cons v rest ih =>
    have hv : is_code_string_enum v = true := h v (List.mem_cons_self _ _)
    have hrest := ih (fun x hx => h x (List.mem_cons_of_mem _ hx))
    cases hobj : v.asObject with
    | none => simp [is_code_string_enum, hobj] at hv
    | some vobj =>
      cases hty : (jGet vobj "type").bind Json.asStr with
      | none => simp [is_code_string_enum, hobj, hty] at hv
      | some t =>
        by_cases hts : t = "string"
        · subst hts
          cases henum : (jGet vobj "enum").bind Json.asArray with
          | none => simp [is_code_string_enum, hobj, hty, henum] at hv
          | some enum_vals =>
            have hflag : (enum_strings_scan enum_vals).2 = true := by
              simpa [is_code_string_enum, hobj, hty, henum] using hv
            simp [collect_string_enums, hobj, hty, henum, hflag, hrest,
              enum_values_of]
        · simp [is_code_string_enum, hobj, hty, hts] at hv

/-- If any variant fails the code's string-enum check, the variant loop
ends with the flag cleared. -/
theorem collect_string_enums_fail (one_of : List Json)
    (h : ∃ v ∈ one_of, is_code_string_enum v = false) :
    (collect_string_enums one_of).2 = false := by
  induction one_of with
  | nil => simp at h
  | cons v rest ih =>
    by_cases hv : is_code_string_enum v = true
    · obtain ⟨w, hw, hwfalse⟩ := h
      rcases List.mem_cons.mp hw with rfl | hw'
      · exact absurd hv (by simp [hwfalse])
      · have hrest := ih ⟨w, hw', hwfalse⟩
        cases hobj : v.asObject with
        | none => simp [is_code_string_enum, hobj] at hv
        | some vobj =>
          cases hty : (jGet vobj "type").bind Json.asStr with
          | none => simp [is_code_string_enum, hobj, hty] at hv
          | some t =>
            by_cases hts : t = "string"
            · subst hts
              cases henum : (jGet vobj "enum").bind Json.asArray with
              | none => simp [is_code_string_enum, hobj, hty, henum] at hv
              | some enum_vals =>
                have hflag : (enum_strings_scan enum_vals).2 = true := by
                  simpa [is_code_string_enum, hobj, hty, henum] using hv
                simp [collect_string_enums, hobj, hty, henum, hflag, hrest]
            · simp [is_code_string_enum, hobj, hty, hts] at hv
    · rw [Bool.not_eq_true] at hv
      cases hobj : v.asObject with
      | none => simp [collect_string_enums, hobj]
      | some vobj =>
        cases hty : (jGet vobj "type").bind Json.asStr with
        | none => simp [collect_string_enums, hobj, hty]
        | some t =>
          by_cases hts : t = "string"
          · subst hts
            cases henum : (jGet vobj "enum").bind Json.asArray with
            | none => simp [collect_string_enums, hobj, hty, henum]
            | some enum_vals =>
              have hflag : (enum_strings_scan enum_vals).2 = false := by
                simpa [is_code_string_enum, hobj, hty, henum] using hv
              simp [collect_string_enums, hobj, hty, henum, hflag]
          · simp [collect_string_enums, hobj, hty, hts]

/-- The merged node `flatten_one_of` builds: a String node with
`format = "enum"`, the concatenated values, and the parent's
`description` when present. -/
def merged_enum_node (vals : List String)
    (parent_obj : List (String × Json)) : SimpSchema :=
  let merged := ((SimpSchema.base .string).set_format
    (some "enum")).set_enum_values (some vals)
  match (jGet parent_obj "description").bind Json.asStr with
  | some d => merged.set_description (some d)
  | none => merged

/-- C7 (amended): `flatten_one_of` (and `flatten_any_of`, which is
identical) merges the branches into a single String node with
`format = "enum"` and the branches' enum values concatenated in branch
order, without deduplication, exactly when every branch passes the code's
string-enum check — an object with `type == "string"` and an `enum` array
of strings, *regardless of any other keys such as `$ref`* — and the
concatenation is non-empty; otherwise (some branch fails the check, or
every enum is empty) only the first branch is converted and the remaining
branches are discarded; an empty `oneOf` is an error. -/
theorem claim_C7 :
    (∀ (recurse : Json → Except ConversionError SimpSchema)
        (one_of : List Json) (parent_obj : List (String × Json)),
      one_of ≠ [] → (∀ v ∈ one_of, is_code_string_enum v = true) →
      (one_of.map enum_values_of).join ≠ [] →
      flatten_one_of recurse one_of parent_obj
        = .ok (merged_enum_node ((one_of.map enum_values_of).join) parent_obj)) ∧
    (∀ (recurse : Json → Except ConversionError SimpSchema)
        (one_of : List Json) (parent_obj : List (String × Json)),
      (∃ v ∈ one_of, is_code_string_enum v = false) →
      flatten_one_of recurse one_of parent_obj = recurse (one_of.headD .null)) ∧
    (∀ (recurse : Json → Except ConversionError SimpSchema)
        (one_of : List Json) (parent_obj : List (String × Json)),
      one_of ≠ [] → (∀ v ∈ one_of, is_code_string_enum v = true) →
      (one_of.map enum_values_of).join = [] →
      flatten_one_of recurse one_of parent_obj = recurse (one_of.headD .null)) ∧
    (∀ (recurse : Json → Except ConversionError SimpSchema)
        (any_of : List Json) (parent_obj : List (String × Json)),
      flatten_any_of recurse any_of parent_obj
        = flatten_one_of recurse any_of parent_obj) ∧
    (∀ (recurse : Json → Except ConversionError SimpSchema)
        (parent_obj : List (String × Json)),
      flatten_one_of recurse [] parent_obj
        = .error (.InvalidSchema "Empty oneOf array")) ∧
    (∀ (defs : List (String × Json)) (fuel : Nat)
        (kvs : List (String × Json)) (one_of : List Json),
      (jGet kvs "$ref").bind Json.asStr = none →
      (jGet kvs "oneOf").bind Json.asArray = some one_of →
      convert_schema defs (fuel + 1) (.obj kvs)
        = flatten_one_of (fun j => convert_schema defs fuel j) one_of kvs) ∧
    (∀ vals : List Json, (enum_strings_scan vals).2 = true →
      (enum_strings_scan vals).1 = vals.filterMap Json.asStr) := by
  refine ⟨?_, ?_, ?_, ?_, ?_, ?_, enum_strings_scan_all⟩
  · intro recurse one_of parent_obj hne hall hjoin
    unfold flatten_one_of
    rw [if_neg (by simpa [List.isEmpty_iff] using hne)]
    rw [collect_string_enums_all one_of hall]
    simp only [List.isEmpty_iff]
    rw [if_pos (by simp [hjoin])]
    rfl
  · intro recurse one_of parent_obj hex
    have hne : one_of ≠ [] := by
      obtain ⟨v, hv, _⟩ := hex
      intro hnil
      rw [hnil] at hv
      simp at hv
    unfold flatten_one_of
    rw [if_neg (by simpa [List.isEmpty_iff] using hne)]
    have hflag := collect_string_enums_fail one_of hex
    rw [if_neg (by simp [hflag])]
  · intro recurse one_of parent_obj hne hall hjoin
    unfold flatten_one_of
    rw [if_neg (by simpa [List.isEmpty_iff] using hne)]
    rw [collect_string_enums_all one_of hall]
    rw [if_neg (by simp [hjoin])]
  · intro recurse any_of parent_obj
    rfl
  · intro recurse parent_obj
    rfl
  · intro defs fuel kvs one_of href honeof
    show (match (Json.obj kvs).asObject with
      | some obj =>
        match (jGet obj "$ref").bind Json.asStr with
        | some ref_path =>
          match resolve_ref defs ref_path with
          | .ok resolved => convert_schema defs fuel resolved
          | .error e => .error e
        | none =>
          match (jGet obj "oneOf").bind Json.asArray with
          | some one_of =>
            flatten_one_of (fun j => convert_schema defs fuel j) one_of obj
          | none =>
            match (jGet obj "allOf").bind Json.asArray with
            | some all_of =>
              flatten_all_of (fun j => convert_schema defs fuel j) all_of obj
            | none =>
              match (jGet obj "anyOf").bind Json.asArray with
              | some any_of =>
                flatten_any_of (fun j => convert_schema defs fuel j) any_of obj
              | none =>
                convert_plain (fun j => convert_schema defs fuel j) (.obj kvs)
      | none => convert_plain (fun j => convert_schema defs fuel j) (.obj kvs))
      = flatten_one_of (fun j => convert_schema defs fuel j) one_of kvs
    simp only [Json.asObject, href, honeof]

/-- Witness for C7: the spec's own example — three string-enum branches
with values `["a"]`, `["b"]`, `["c"]` merge into one String node with
`format = "enum"` and `enumValues = ["a", "b", "c"]`. -/
theorem claim_C7_witness :
    flatten_one_of (fun _ => .error (.InvalidSchema "unused"))
      [.obj [("type", .str "string"), ("enum", .arr [.str "a"])],
       .obj [("type", .str "string"), ("enum", .arr [.str "b"])],
       .obj [("type", .str "string"), ("enum", .arr [.str "c"])]] []
    = .ok (merged_enum_node ["a", "b", "c"] []) :=
  claim_C7.1 (fun _ => .error (.InvalidSchema "unused"))
    [.obj [("type", .str "string"), ("enum", .arr [.str "a"])],
     .obj [("type", .str "string"), ("enum", .arr [.str "b"])],
     .obj [("type", .str "string"), ("enum", .arr [.str "c"])]] []
    (List.cons_ne_nil _ _) (by decide) (by decide)

/-- A `oneOf` with a single branch that is simultaneously a string enum
(empty `enum`) and a `$ref`. -/
def cexC7a : Json :=
  .obj [("oneOf", .arr [.obj [("type", .str "string"), ("enum", .arr []),
          ("$ref", .str "#/$defs/x")]]),
        ("$defs", .obj [("x", .obj [("type", .str "integer")])])]

/-- The same with a non-empty `enum`. -/
def cexC7b : Json :=
  .obj [("oneOf", .arr [.obj [("type", .str "string"),
          ("enum", .arr [.str "a"]), ("$ref", .str "#/$defs/x")]]),
        ("$defs", .obj [("x", .obj [("type", .str "integer")])])]

/-- Counterexample for C7, refuting the claim under either reading of
"plain string-enum schema".  Loose reading (an object with `type:"string"`
and a string `enum`, other keys permitted): in `cexC7a` the single branch
qualifies, so the claim demands one String node with the concatenated
(empty) enum values — but the code converts the first branch, follows its
`$ref` and yields an *Integer* node.  Strict reading (no extra keys): in
`cexC7b` the branch is not plain (it carries `$ref`), so the claim demands
that only the first branch be converted — which would resolve the `$ref`
to an Integer node — but the code merges and yields the String/enum node
`["a"]` without ever resolving the reference. -/
theorem claim_C7_counterexample :
    convert cexC7a 8 = .ok (SimpSchema.base .integer) ∧
    (SimpSchema.base .integer).schema_type ≠ SchemaType.string ∧
    convert cexC7b 8
      = .ok (((SimpSchema.base .string).set_format
          (some "enum")).set_enum_values (some ["a"])) ∧
    convert_schema (extract_definitions cexC7b) 8
        (.obj [("type", .str "string"), ("enum", .arr [.str "a"]),
               ("$ref", .str "#/$defs/x")])
      = .ok (SimpSchema.base .integer) ∧
    (((SimpSchema.base .string).set_format
        (some "enum")).set_enum_values (some ["a"])).schema_type
      ≠ (SimpSchema.base .integer).schema_type := by
  refine ⟨by rfl, by decide, by rfl, by rfl, by decide⟩

/-! ## C8: object properties -/

theorem set_flat_properties (g : SimpSchema) (f : SimpFlat → SimpFlat) :
    (g.set_flat f).properties = g.properties := by
  cases g
  rfl

theorem set_properties_properties (g : SimpSchema)
    (v : Option (List (String × SimpSchema))) :
    (g.set_properties v).properties = v := by
  cases g
  rfl

/-- The property loop succeeds exactly when every property converts, and
then the produced association list carries exactly the source keys, each
bound to the conversion of its schema. -/
theorem convert_props_spec (recurse : Json → Except ConversionError SimpSchema) :
    ∀ (props : List (String × Json)) (ps : List (String × SimpSchema)),
      convert_props recurse props = .ok ps →
      ps.length = props.length ∧
      (∀ k v, (k, v) ∈ props → ∃ c, recurse v = .ok c ∧ (k, c) ∈ ps) ∧
      (∀ k c, (k, c) ∈ ps → ∃ v, (k, v) ∈ props ∧ recurse v = .ok c) := by
  intro props
  induction props with
  | nil =>
    intro ps h
    replace h : ps = [] := by
      simpa [convert_props] using h.symm
    subst h
    exact ⟨rfl, by simp, by simp⟩
  | cons kv rest ih =>
    intro ps h
    obtain ⟨k0, v0⟩ := kv
    unfold convert_props at h
    cases hc : recurse v0 with
    | error e => rw [hc] at h; exact absurd h (by simp)
    | ok c0 =>
      rw [hc] at h
      cases hr : convert_props recurse rest with
      | error e => rw [hr] at h; exact absurd h (by simp)
      | ok r =>
        rw [hr] at h
        simp only [Except.ok.injEq] at h
        subst h
        obtain ⟨hlen, hfwd, hbwd⟩ := ih r hr
        refine ⟨by simp [hlen], ?_, ?_⟩
        · intro k v hkv
          rcases List.mem_cons.mp hkv with heq | hkv'
          · obtain ⟨rfl, rfl⟩ := Prod.mk.injEq .. ▸ heq
            injection heq with h1 h2
            exact ⟨c0, by rw [← h2] at hc; exact hc, by rw [h1]; simp⟩
          · obtain ⟨c, hcv, hcmem⟩ := hfwd k v hkv'
            exact ⟨c, hcv, List.mem_cons_of_mem _ hcmem⟩
        · intro k c hkc
          rcases List.mem_cons.mp hkc with heq | hkc'
          · injection heq with h1 h2
            exact ⟨v0, by rw [h1]; simp, by rw [← h2] at hc; exact hc⟩
          · obtain ⟨v, hv, hvc⟩ := hbwd k c hkc'
            exact ⟨v, List.mem_cons_of_mem _ hv, hvc⟩

/-- C8 (amended): the converted object node's `properties` is a mapping
with exactly the source's property names, each bound to the conversion of
its schema — but it is stored in an unordered `std::collections::HashMap`
(simplified_schema.rs:43), so no serialization order, in particular not
the source's insertion order, is guaranteed (see the counterexample). -/
theorem claim_C8 :
    (∀ (recurse : Json → Except ConversionError SimpSchema)
        (props : List (String × Json)) (ps : List (String × SimpSchema)),
      convert_props recurse props = .ok ps →
      ps.length = props.length ∧
      (∀ k v, (k, v) ∈ props → ∃ c, recurse v = .ok c ∧ (k, c) ∈ ps) ∧
      (∀ k c, (k, c) ∈ ps → ∃ v, (k, v) ∈ props ∧ recurse v = .ok c)) ∧
    (∀ (recurse : Json → Except ConversionError SimpSchema)
        (schema : List (String × Json)) (g0 g' : SimpSchema)
        (props : List (String × Json)),
      convert_object_fields recurse schema g0 = .ok g' →
      (jGet schema "properties").bind Json.asObject = some props →
      ∃ ps, convert_props recurse props = .ok ps ∧ g'.properties = some ps) := by
  refine ⟨fun recurse => convert_props_spec recurse, ?_⟩
  intro recurse schema g0 g' props hok hprops
  unfold convert_object_fields at hok
  rw [hprops] at hok
  dsimp only at hok
  cases hcp : convert_props recurse props with
  | error e =>
    rw [hcp] at hok
    simp [bind, Except.bind] at hok
  | ok ps =>
    rw [hcp] at hok
    refine ⟨ps, rfl, ?_⟩
    simp only [bind, Except.bind] at hok
    revert hok
    cases hreq : (jGet schema "required").bind Json.asArray with
    | none =>
      intro hok
      dsimp only at hok
      simp only [pure, Except.pure, Except.ok.injEq] at hok
      subst hok
      cases hmin : (jGet schema "minProperties").bind Json.asU64 <;>
        cases hmax : (jGet schema "maxProperties").bind Json.asU64 <;>
          simp [hmin, hmax, SimpSchema.set_min_properties,
            SimpSchema.set_max_properties, set_flat_properties,
            set_properties_properties]
    | some required =>
      intro hok
      dsimp only at hok
      cases hrs : required_strings required with
      | error e =>
        rw [hrs] at hok
        simp [bind, Except.bind] at hok
      | ok strs =>
        rw [hrs] at hok
        simp only [bind, Except.bind, pure, Except.pure, Except.ok.injEq] at hok
        subst hok
        cases hmin : (jGet schema "minProperties").bind Json.asU64 <;>
          cases hmax : (jGet schema "maxProperties").bind Json.asU64 <;>
            simp [hmin, hmax, SimpSchema.set_min_properties,
              SimpSchema.set_max_properties, SimpSchema.set_required,
              set_flat_properties, set_properties_properties]

/-- The source object of the C8 counterexample, with properties declared
in the order `b`, `a`. -/
def cexC8 : Json :=
  .obj [("type", .str "object"),
        ("properties", .obj [("b", .obj [("type", .str "string")]),
                             ("a", .obj [("type", .str "string")])])]

def cexC8props : List (String × SimpSchema) :=
  [("b", .base .string), ("a", .base .string)]

/-- Counterexample for C8.  The Rust `properties` field is a
`std::collections::HashMap<String, SimplifiedSchema>`
(simplified_schema.rs:43), whose iteration — and hence serde
serialization — order is unspecified: any permutation of the entries is a
legal observation.  Converting an object whose source property order is
`b, a` yields that mapping, and the permutation `a, b` of it is a legal
serialization order whose key sequence differs from the source order —
refuting "serializing the converted node emits the object's properties
deterministically in the original order". -/
theorem claim_C8_counterexample :
    convert cexC8 8
      = .ok ((SimpSchema.base .object).set_properties (some cexC8props)) ∧
    ((SimpSchema.base .object).set_properties (some cexC8props)).properties
      = some cexC8props ∧
    ([("a", SimpSchema.base .string), ("b", SimpSchema.base .string)]).Perm
      cexC8props ∧
    ([("a", SimpSchema.base .string),
      ("b", SimpSchema.base .string)]).map Prod.fst ≠ cexC8props.map Prod.fst := by
  refine ⟨by rfl, by rfl, ?_, by decide⟩
  exact List.Perm.swap _ _ _

/-- Witness for C8: the content-preservation theorem applied to the
concrete two-property object. -/
theorem claim_C8_witness :
    ([("b", SimpSchema.base .string),
      ("a", SimpSchema.base .string)] : List (String × SimpSchema)).length
        = ([("b", Json.obj [("type", Json.str "string")]),
            ("a", Json.obj [("type", Json.str "string")])] :
              List (String × Json)).length ∧
    (∀ k v, (k, v) ∈ ([("b", Json.obj [("type", Json.str "string")]),
            ("a", Json.obj [("type", Json.str "string")])] :
              List (String × Json)) →
      ∃ c, convert_schema [] 7 v = .ok c ∧
        (k, c) ∈ [("b", SimpSchema.base .string), ("a", SimpSchema.base .string)]) ∧
    (∀ k c, (k, c) ∈ [("b", SimpSchema.base .string),
        ("a", SimpSchema.base .string)] →
      ∃ v, (k, v) ∈ ([("b", Json.obj [("type", Json.str "string")]),
            ("a", Json.obj [("type", Json.str "string")])] :
              List (String × Json)) ∧ convert_schema [] 7 v = .ok c) :=
  claim_C8.1 (fun j => convert_schema [] 7 j)
    [("b", Json.obj [("type", Json.str "string")]),
     ("a", Json.obj [("type", Json.str "string")])]
    [("b", SimpSchema.base .string), ("a", SimpSchema.base .string)]
    (by rfl)

/-! ## Response extraction
(src/doc-generator/src/llm_interface/extract_json.rs and `try_parse` in
src/src/llm_interface/mod.rs)

Text is a `List Char`.  The two regexes are modelled by hand-written
scanners with the regex crate's semantics: leftmost match, `.` matches
everything except a newline, `\{.*\}` is greedy, the code-block pattern's
`\{.*?\}` is lazy.  Rust's `String` ordering (byte-wise lexicographic,
which on UTF-8 coincides with code-point lexicographic order) is
Mathlib's lexicographic order on `List Char`.  `\s`/`char::is_whitespace`
are modelled on their ASCII part; every input in the claims is ASCII. -/

/-- The backtick character. -/
def btick : Char := Char.ofNat 96

/-- The regex class `\s` = `[\t\n\v\f\r ]`. -/
def isWsChar (c : Char) : Bool :=
  c = ' ' || c = '\t' || c = '\n' || c = '\r' ||
    c = Char.ofNat 11 || c = Char.ofNat 12

def slice (text : List Char) (a b : Nat) : List Char :=
  (text.drop a).take (b - a)

/-- Index of the last '\x7d' in `l`, if any. -/
def lastBraceIdx : List Char → Option Nat
  | [] => none
  | c :: rest =>
    match lastBraceIdx rest with
    | some i => some (i + 1)
    | none => if c = '}' then some 0 else none

/-- One `JSON_OBJECT` (`\{.*\}`) search on `l` (the text from absolute
position `pos`): the leftmost '\x7b' having a '\x7d' later on its line,
matched greedily to the line's last '\x7d'.  Returns the absolute
(start, end-exclusive) span. -/
def greedyFindAux : List Char → Nat → Option (Nat × Nat)
  | [], _ => none
  | c :: rest, pos =>
    if c = '{' then
      match lastBraceIdx (rest.takeWhile (fun ch => ch ≠ '\n')) with
      | some j => some (pos, pos + 1 + j + 1)
      | none => greedyFindAux rest (pos + 1)
    else greedyFindAux rest (pos + 1)

/-- `JSON_OBJECT.find_iter`: repeated non-overlapping greedy matches, each
search resuming at the end of the previous match.  The fuel is only a
structural-recursion device; `text.length + 1` always suffices because
every match is non-empty. -/
def greedyFindsFrom (text : List Char) : Nat → Nat → List (List Char)
  | 0, _ => []
  | fuel + 1, i =>
    match greedyFindAux (text.drop i) i with
    | none => []
    | some (s, e) =>
      if e > i then slice text s e :: greedyFindsFrom text fuel e else []

def JSON_OBJECT_finds (text : List Char) : List (List Char) :=
  greedyFindsFrom text (text.length + 1) 0

/-- The lazy `(\{.*?\})\s*` + three backticks part of the code-block regex,
scanning the body after the opening '\x7b' (absolute position `pos`): at
each '\x7d' (the earliest first — `.*?` is lazy), check that only
whitespace separates it from a closing fence; on failure the '\x7d' is
consumed by `.` and the scan continues; a newline in the body kills the
match (`.` does not match '\n').  Returns (capture-end, full-match-end). -/
def lazyBody : List Char → Nat → Option (Nat × Nat)
  | [], _ => none
  | c :: rest, pos =>
    if c = '}' then
      let ws := rest.takeWhile isWsChar
      match rest.drop ws.length with
      | a :: b :: d :: _ =>
        if a = btick ∧ b = btick ∧ d = btick then
          some (pos + 1, pos + 1 + ws.length + 3)
        else lazyBody rest (pos + 1)
      | _ => lazyBody rest (pos + 1)
    else if c = '\n' then none
    else lazyBody rest (pos + 1)

/-- One attempt to match the code-block regex
`` ```(?:json)?\s*(\{.*?\})\s*``` `` starting exactly at absolute position
`pos` (`l` is the text from there).  Returns
(capture-start, capture-end, full-match-end).  Taking the `json` branch
whenever it is present is faithful: if text follows "json" on which the
rest fails, the empty branch fails as well (the next char is 'j', neither
whitespace nor '\x7b'). -/
def tryCodeBlock (l : List Char) (pos : Nat) : Option (Nat × Nat × Nat) :=
  match l with
  | a :: b :: c :: rest =>
    if a = btick ∧ b = btick ∧ c = btick then
      let hasJson := rest.take 4 = ['j', 's', 'o', 'n']
      let rest1 := if hasJson then rest.drop 4 else rest
      let consumed1 := if hasJson then 4 else 0
      let ws := rest1.takeWhile isWsChar
      let capStart := pos + 3 + consumed1 + ws.length
      match rest1.drop ws.length with
      | '{' :: body =>
        match lazyBody body (capStart + 1) with
        | some (capEnd, fullEnd) => some (capStart, capEnd, fullEnd)
        | none => none
      | _ => none
    else none
  | _ => none

/-- `JSON_CODE_BLOCK.captures_iter`: try each start position from left to
right; after a match, resume at the end of the whole match.  Fuel as in
`greedyFindsFrom`. -/
def codeBlockCapturesFrom (text : List Char) : Nat → Nat → List (List Char)
  | 0, _ => []
  | fuel + 1, i =>
    if i ≥ text.length then []
    else
      match tryCodeBlock (text.drop i) i with
      | some (cs, ce, fe) =>
        if fe > i then slice text cs ce :: codeBlockCapturesFrom text fuel fe
        else []
      | none => codeBlockCapturesFrom text fuel (i + 1)

def JSON_CODE_BLOCK_captures (text : List Char) : List (List Char) :=
  codeBlockCapturesFrom text (text.length + 1) 0

/-- `extract_json_from_response`: the first code-block capture, else the
first greedy `\{.*\}` match, else `None`. -/
def extract_json_from_response (text : List Char) : Option (List Char) :=
  match (JSON_CODE_BLOCK_captures text).head? with
  | some cap => some cap
  | none =>
    match greedyFindAux text 0 with
    | some (s, e) => some (slice text s e)
    | none => none

/-- Index of the first '\x7b'. -/
def firstBraceIdx : List Char → Option Nat
  | [] => none
  | c :: rest =>
    if c = '{' then some 0 else (firstBraceIdx rest).map (fun i => i + 1)

/-- The brace-counting loop of strategy 3 (extract_json.rs:48-59):
increment on '\x7b', decrement on '\x7d' and stop (returning the length
consumed) when the count reaches zero. -/
def scanBal : List Char → Int → Nat → Option Nat
  | [], _, _ => none
  | c :: rest, cnt, pos =>
    if c = '{' then scanBal rest (cnt + 1) (pos + 1)
    else if c = '}' then
      if cnt - 1 = 0 then some (pos + 1) else scanBal rest (cnt - 1) (pos + 1)
    else scanBal rest cnt (pos + 1)

/-- Strategy 3: the balanced-brace candidate from the first '\x7b'. -/
def balanced_candidate (text : List Char) : Option (List Char) :=
  match firstBraceIdx text with
  | none => none
  | some start =>
    match scanBal (text.drop start) 0 0 with
    | some k => if k > 0 then some (slice text start (start + k)) else none
    | none => none

/-- `extract_json_aggressively`: all code-block captures, then all greedy
object matches, then the balanced-brace candidate; `Vec::sort` then
`Vec::dedup` (which removes only consecutive duplicates — after sorting,
all of them). -/
def extract_json_aggressively (text : List Char) : List (List Char) :=
  let candidates := JSON_CODE_BLOCK_captures text ++ JSON_OBJECT_finds text ++
    (match balanced_candidate text with
     | some c => [c]
     | none => [])
  (candidates.insertionSort (· ≤ ·)).destutter (fun a b => a ≠ b)

/-- `str::trim` (ASCII whitespace suffices for the claims). -/
def trimChars (l : List Char) : List Char :=
  ((l.dropWhile isWsChar).reverse.dropWhile isWsChar).reverse

/-- The candidate list of `try_parse` (mod.rs:51-55). -/
def try_parse_candidates (text : List Char) : List (Option (List Char)) :=
  [some (trimChars text), extract_json_from_response text,
   (extract_json_aggressively text).head?]

/-- Try candidates in order, short-circuiting on the first successful
parse (the aggregated error message is abstracted to `none`). -/
def first_parse {T : Type} (parse : List Char → Option T) :
    List (Option (List Char)) → Option T
  | [] => none
  | none :: rest => first_parse parse rest
  | some c :: rest =>
    match parse c with
    | some v => some v
    | none => first_parse parse rest

/-- `try_parse`, parameterized by the deserializer
(`serde_json::from_str::<T>`), which is outside this crate. -/
def try_parse {T : Type} (parse : List Char → Option T) (text : List Char) :
    Option T :=
  first_parse parse (try_parse_candidates text)

/-! ### A JSON syntax acceptor

A concrete stand-in for `serde_json::from_str` in witnesses and
counterexamples: a recursive-descent recognizer of JSON values
(objects, arrays, strings with (laxly accepted) escapes, integer/decimal
numbers, `true`/`false`/`null`), requiring the whole input to be one
value up to surrounding whitespace.  `serde_json` rejects everything this
recognizer rejects on the concrete inputs used below. -/

def isJsonWs (c : Char) : Bool :=
  c = ' ' || c = '\t' || c = '\n' || c = '\r'

def skipJsonWs (l : List Char) : List Char := l.dropWhile isJsonWs

/-- Consume a string body after the opening quote. -/
def jsonStringBody : List Char → Option (List Char)
  | [] => none
  | '"' :: rest => some rest
  | '\\' :: [] => none
  | '\\' :: _ :: rest => jsonStringBody rest
  | _ :: rest => jsonStringBody rest

def jsonDigits : List Char → Option (List Char)
  | l =>
    let ds := l.takeWhile Char.isDigit
    if ds.isEmpty then none else some (l.drop ds.length)

/-- Consume a number (integer, optional fraction and exponent). -/
def jsonNumberRest (l : List Char) : Option (List Char) := do
  let l1 := match l with
    | '-' :: rest => rest
    | _ => l
  let l2 ← jsonDigits l1
  let l3 ← match l2 with
    | '.' :: rest => jsonDigits rest
    | _ => some l2
  match l3 with
  | 'e' :: rest =>
    jsonDigits (match rest with
      | '+' :: r => r
      | '-' :: r => r
      | _ => rest)
  | 'E' :: rest =>
    jsonDigits (match rest with
      | '+' :: r => r
      | '-' :: r => r
      | _ => rest)
  | _ => some l3

mutual

def jsonValue : Nat → List Char → Option (List Char)
  | 0, _ => none
  | fuel + 1, l =>
    match l with
    | '{' :: rest =>
      (match skipJsonWs rest with
       | '}' :: r2 => some r2
       | r => jsonMembers fuel r)
    | '[' :: rest =>
      (match skipJsonWs rest with
       | ']' :: r2 => some r2
       | r => jsonElements fuel r)
    | '"' :: rest => jsonStringBody rest
    | 't' :: rest => if rest.take 3 = ['r', 'u', 'e'] then some (rest.drop 3) else none
    | 'f' :: rest => if rest.take 4 = ['a', 'l', 's', 'e'] then some (rest.drop 4) else none
    | 'n' :: rest => if rest.take 3 = ['u', 'l', 'l'] then some (rest.drop 3) else none
    | c :: _ => if c = '-' || c.isDigit then jsonNumberRest l else none
    | [] => none

def jsonMembers : Nat → List Char → Option (List Char)
  | 0, _ => none
  | fuel + 1, l =>
    match l with
    | '"' :: rest =>
      match jsonStringBody rest with
      | some r1 =>
        (match skipJsonWs r1 with
         | ':' :: r3 =>
           (match jsonValue fuel (skipJsonWs r3) with
            | some r4 =>
              (match skipJsonWs r4 with
               | ',' :: r6 => jsonMembers fuel (skipJsonWs r6)
               | '}' :: r6 => some r6
               | _ => none)
            | none => none)
         | _ => none)
      | none => none
    | _ => none

def jsonElements : Nat → List Char → Option (List Char)
  | 0, _ => none
  | fuel + 1, l =>
    match jsonValue fuel l with
    | some r1 =>
      (match skipJsonWs r1 with
       | ',' :: r2 => jsonElements fuel (skipJsonWs r2)
       | ']' :: r2 => some r2
       | _ => none)
    | none => none

end

def json_valid (l : List Char) : Bool :=
  match jsonValue (l.length + 1) (skipJsonWs l) with
  | some rest => (skipJsonWs rest).isEmpty
  | none => false

/-- The acceptor as an `Option`-valued parse function for `try_parse`. -/
def json_parse_opt (l : List Char) : Option Unit :=
  if json_valid l then some () else none

/-! ## C10: sorted, deduplicated candidate list -/

/-- `destutter (· ≠ ·)` of a `≤`-sorted list is strictly sorted. -/
theorem chain_lt_of_sorted_ne {α : Type} [LinearOrder α] :
    ∀ l : List α, l.Sorted (· ≤ ·) → l.Chain' (fun a b => a ≠ b) →
      l.Chain' (· < ·)
  | [], _, _ => List.chain'_nil
  | [_], _, _ => List.chain'_singleton _
  | a :: b :: t, hs, hc => by
    rw [List.chain'_cons] at hc ⊢
    rw [List.sorted_cons] at hs
    exact ⟨lt_of_le_of_ne (hs.1 b (List.mem_cons_self _ _)) hc.1,
      chain_lt_of_sorted_ne (b :: t) hs.2 hc.2⟩

theorem nodup_destutter_of_sorted {α : Type} [LinearOrder α] [DecidableEq α]
    {l : List α} (hs : l.Sorted (· ≤ ·)) :
    (l.destutter (fun a b => a ≠ b)).Nodup := by
  have hsorted : (l.destutter (fun a b => a ≠ b)).Sorted (· ≤ ·) :=
    List.Pairwise.sublist (List.destutter_sublist _ _) hs
  have hchain : (l.destutter (fun a b => a ≠ b)).Chain' (fun a b => a ≠ b) :=
    List.destutter_is_chain' _ _
  have hlt := chain_lt_of_sorted_ne _ hsorted hchain
  exact List.Pairwise.imp ne_of_lt (List.chain'_iff_pairwise.mp hlt)

/-- The head of a `≤`-sorted list is a lower bound. -/
theorem sorted_head?_le {α : Type} [Preorder α] {l : List α}
    (hs : l.Sorted (· ≤ ·)) {m : α} (hh : l.head? = some m) :
    ∀ x ∈ l, m ≤ x := by
  cases l with
  | nil => simp at hh
  | cons a t =>
    rw [List.head?_cons, Option.some.injEq] at hh
    subst hh
    rw [List.sorted_cons] at hs
    intro x hx
    rcases List.mem_cons.mp hx with rfl | hx'
    · exact le_refl _
    · exact hs.1 x hx'

/-- The raw candidate list of `extract_json_aggressively`, before sort and
dedup. -/
def raw_candidates (text : List Char) : List (List Char) :=
  JSON_CODE_BLOCK_captures text ++ JSON_OBJECT_finds text ++
    (match balanced_candidate text with
     | some c => [c]
     | none => [])

theorem extract_json_aggressively_eq (text : List Char) :
    extract_json_aggressively text
      = ((raw_candidates text).insertionSort (· ≤ ·)).destutter
          (fun a b => a ≠ b) := rfl

/-- Membership in the extracted list is membership in the raw candidates. -/
theorem mem_extract_json_aggressively {text : List Char} {c : List Char} :
    c ∈ extract_json_aggressively text ↔ c ∈ raw_candidates text := by
  rw [extract_json_aggressively_eq, mem_destutter_ne, List.mem_insertionSort]

theorem extract_json_aggressively_sorted (text : List Char) :
    (extract_json_aggressively text).Sorted (· ≤ ·) :=
  List.Pairwise.sublist (List.destutter_sublist _ _)
    (List.sorted_insertionSort _ _)

/-- The counterexample text for C9/C10:
`p {"a":{"b":1},\n"c":2} q` — prose around one balanced JSON object with
nested braces, with a newline inside the object. -/
def cexC9 : List Char := "p \x7b\"a\":\x7b\"b\":1\x7d,\n\"c\":2\x7d q".toList

def cexC9pre : List Char := "p ".toList

/-- The embedded JSON object. -/
def cexC9obj : List Char := "\x7b\"a\":\x7b\"b\":1\x7d,\n\"c\":2\x7d".toList

def cexC9post : List Char := " q".toList

/-- The greedy regex candidate on the counterexample text: the match stops
at the last `\x7d` of the first line, inside the object. -/
def cexC9greedy : List Char := "\x7b\"a\":\x7b\"b\":1\x7d".toList

/-- C10: `extract_json_aggressively` returns a lexicographically sorted,
duplicate-free list whose members are exactly the union of the three
candidate sets (code-block captures, greedy regex matches, the balanced
brace-count substring); the third candidate `try_parse` attempts is the
head of that list — the lexicographically smallest extracted candidate —
and it is not necessarily the brace-counting scan's result (witnessed by
`cexC9`, where the head is the greedy match, not the balanced object). -/
theorem claim_C10 :
    (∀ text : List Char,
      (extract_json_aggressively text).Sorted (· ≤ ·) ∧
      (extract_json_aggressively text).Nodup ∧
      (∀ c, c ∈ extract_json_aggressively text ↔
        (c ∈ JSON_CODE_BLOCK_captures text ∨ c ∈ JSON_OBJECT_finds text ∨
          balanced_candidate text = some c))) ∧
    (∀ text : List Char,
      (try_parse_candidates text).get? 2
        = some ((extract_json_aggressively text).head?)) ∧
    (∀ (text : List Char) (h c : List Char),
      (extract_json_aggressively text).head? = some h →
      c ∈ extract_json_aggressively text → h ≤ c) ∧
    (balanced_candidate cexC9 = some cexC9obj ∧
      (extract_json_aggressively cexC9).head? = some cexC9greedy ∧
      cexC9greedy ≠ cexC9obj) := by
  refine ⟨?_, ?_, ?_, by rfl, by rfl, by decide⟩
  · intro text
    refine ⟨extract_json_aggressively_sorted text, ?_, ?_⟩
    · exact nodup_destutter_of_sorted (List.sorted_insertionSort _ _)
    · intro c
      rw [mem_extract_json_aggressively]
      unfold raw_candidates
      simp only [List.mem_append]
      constructor
      · rintro ((h | h) | h)
        · exact Or.inl h
        · exact Or.inr (Or.inl h)
        · refine Or.inr (Or.inr ?_)
          revert h
          cases hb : balanced_candidate text <;> simp
          intro h
          rw [h]
      · rintro (h | h | h)
        · exact Or.inl (Or.inl h)
        · exact Or.inl (Or.inr h)
        · exact Or.inr (by simp [h])
  · intro text
    rfl
  · intro text h c hh hc
    exact sorted_head?_le (extract_json_aggressively_sorted text) hh c hc

/-- Witness for C10's head-is-minimum clause at the concrete text. -/
theorem claim_C10_witness :
    cexC9greedy ≤ cexC9obj :=
  claim_C10.2.2.1 cexC9 cexC9greedy cexC9obj (by rfl)
    (by rw [mem_extract_json_aggressively]; decide)

/-! ## C9: the brace-counting strategy inside try_parse -/

/-- Net brace count of a string: opening minus closing braces. -/
def netBraces : List Char → Int
  | [] => 0
  | c :: l =>
    (if c = '{' then 1 else 0) - (if c = '}' then 1 else 0) + netBraces l

/-- The brace-counting loop consumes exactly a balanced segment: starting
with positive count `cnt`, if `l` brings the count to zero exactly at its
end (every proper prefix keeps it positive), the scan stops after `l`. -/
theorem scanBal_go :
    ∀ (l rest : List Char) (cnt : Int) (pos : Nat),
      0 < cnt → cnt + netBraces l = 0 →
      (∀ k, k < l.length → 0 < cnt + netBraces (l.take k)) →
      scanBal (l ++ rest) cnt pos = some (pos + l.length) := by
  intro l
  induction l with
  | nil =>
    intro rest cnt pos hc h0 _
    exfalso
    simp [netBraces] at h0
    omega
  | cons ch l ih =>
    intro rest cnt pos hc h0 hpre
    by_cases hopen : ch = '{'
    · subst hopen
      show scanBal ('{' :: (l ++ rest)) cnt pos = _
      rw [show scanBal ('{' :: (l ++ rest)) cnt pos
          = scanBal (l ++ rest) (cnt + 1) (pos + 1) by simp [scanBal]]
      rw [ih rest (cnt + 1) (pos + 1) (by omega)
        (by simp [netBraces] at h0; omega)
        (fun k hk => by
          have := hpre (k + 1) (by simpa using Nat.succ_lt_succ hk)
          simp [netBraces] at this
          omega)]
      simp [List.length_cons]
      omega
    · by_cases hclose : ch = '}'
      · subst hclose
        show scanBal ('}' :: (l ++ rest)) cnt pos = _
        by_cases hone : cnt - 1 = 0
        · rw [show scanBal ('}' :: (l ++ rest)) cnt pos = some (pos + 1) by
            simp [scanBal, hone]]
          have hlnil : l = [] := by
            by_contra hne
            have hlen : 1 < (('}' : Char) :: l).length := by
              cases l with
              | nil => exact absurd rfl hne
              | cons a t => simp
            have := hpre 1 (by simpa using hlen)
            simp [netBraces] at this
            omega
          subst hlnil
          simp
        · rw [show scanBal ('}' :: (l ++ rest)) cnt pos
            = scanBal (l ++ rest) (cnt - 1) (pos + 1) by simp [scanBal, hone]]
          rw [ih rest (cnt - 1) (pos + 1) (by omega)
            (by simp [netBraces] at h0; omega)
            (fun k hk => by
              have := hpre (k + 1) (by simpa using Nat.succ_lt_succ hk)
              simp [netBraces] at this
              omega)]
          simp [List.length_cons]
          omega
      · show scanBal (ch :: (l ++ rest)) cnt pos = _
        rw [show scanBal (ch :: (l ++ rest)) cnt pos
          = scanBal (l ++ rest) cnt (pos + 1) by simp [scanBal, hopen, hclose]]
        rw [ih rest cnt (pos + 1) hc
          (by simp [netBraces, hopen, hclose] at h0; omega)
          (fun k hk => by
            have := hpre (k + 1) (by simpa using Nat.succ_lt_succ hk)
            simp [netBraces, hopen, hclose] at this
            omega)]
        simp [List.length_cons]
        omega

theorem firstBraceIdx_append {pre : List Char} (hpre : '{' ∉ pre)
    (r : List Char) :
    firstBraceIdx (pre ++ r) = (firstBraceIdx r).map (fun i => i + pre.length) := by
  induction pre with
  | nil => simp [Option.map_id']
  | cons c pre ih =>
    rw [List.mem_cons, not_or] at hpre
    rw [List.cons_append,
      show firstBraceIdx (c :: (pre ++ r))
        = if c = '{' then some 0
          else (firstBraceIdx (pre ++ r)).map (fun i => i + 1) from rfl,
      if_neg (by simpa using fun h => hpre.1 h.symm), ih hpre.2]
    cases firstBraceIdx r <;> simp [List.length_cons] <;> omega

/-- The balanced-brace strategy on prose + balanced object + prose returns
exactly the object. -/
theorem balanced_candidate_concat (pre tl post : List Char)
    (hpre : '{' ∉ pre)
    (h0 : netBraces ('{' :: tl) = 0)
    (hpref : ∀ k, 0 < k → k < ('{' :: tl).length →
      0 < netBraces (('{' :: tl).take k)) :
    balanced_candidate (pre ++ ('{' :: tl) ++ post) = some ('{' :: tl) := by
  have hfb : firstBraceIdx (pre ++ ('{' :: tl ++ post)) = some pre.length := by
    rw [firstBraceIdx_append hpre]
    simp [firstBraceIdx]
  have hscan : scanBal ('{' :: tl ++ post) 0 0 = some ('{' :: tl).length := by
    rw [List.cons_append,
      show scanBal ('{' :: (tl ++ post)) 0 0 = scanBal (tl ++ post) 1 1 by
        simp [scanBal]]
    rw [scanBal_go tl post 1 1 (by omega)
      (by simp [netBraces] at h0; omega)
      (fun k hk => by
        have := hpref (k + 1) (by omega) (by simpa using Nat.succ_lt_succ hk)
        simp [netBraces] at this
        omega)]
    simp [List.length_cons]
    omega
  rw [List.append_assoc]
  unfold balanced_candidate
  rw [hfb]
  dsimp only
  rw [List.drop_left, hscan]
  dsimp only
  rw [if_pos (by simp)]
  unfold slice
  rw [List.drop_left]
  rw [show pre.length + ('{' :: tl).length - pre.length = ('{' :: tl).length by omega]
  rw [List.take_left]

theorem lastBraceIdx_append_some {b : List Char} {j : Nat}
    (h : lastBraceIdx b = some j) (a : List Char) :
    lastBraceIdx (a ++ b) = some (a.length + j) := by
  induction a with
  | nil => simpa using h
  | cons c a ih =>
    rw [List.cons_append,
      show lastBraceIdx (c :: (a ++ b))
        = match lastBraceIdx (a ++ b) with
          | some i => some (i + 1)
          | none => if c = '}' then some 0 else none from rfl,
      ih]
    simp
    omega

theorem lastBraceIdx_isSome {l : List Char} (h : '}' ∈ l) :
    ∃ j, lastBraceIdx l = some j := by
  induction l with
  | nil => simp at h
  | cons c rest ih =>
    show ∃ j, (match lastBraceIdx rest with
      | some i => some (i + 1)
      | none => if c = '}' then some 0 else none) = some j
    cases hr : lastBraceIdx rest with
    | some i => exact ⟨i + 1, rfl⟩
    | none =>
      rcases List.mem_cons.mp h with rfl | hmem
      · exact ⟨0, by simp⟩
      · obtain ⟨j, hj⟩ := ih hmem
        rw [hj] at hr
        cases hr

theorem greedyFindAux_not_mem {l : List Char} (h : '{' ∉ l) :
    ∀ pos, greedyFindAux l pos = none := by
  induction l with
  | nil => intro pos; rfl
  | cons c rest ih =>
    intro pos
    rw [List.mem_cons, not_or] at h
    show (if c = '{' then _ else greedyFindAux rest (pos + 1)) = none
    rw [if_neg (by simpa using fun hc => h.1 hc.symm)]
    exact ih h.2 (pos + 1)

theorem greedyFindAux_append {pre : List Char} (hpre : '{' ∉ pre) :
    ∀ (r : List Char) (pos : Nat),
      greedyFindAux (pre ++ r) pos = greedyFindAux r (pos + pre.length) := by
  induction pre with
  | nil => intro r pos; simp
  | cons c pre ih =>
    intro r pos
    rw [List.mem_cons, not_or] at hpre
    rw [List.cons_append,
      show greedyFindAux (c :: (pre ++ r)) pos
        = if c = '{' then
            match lastBraceIdx ((pre ++ r).takeWhile (fun ch => ch ≠ '\n')) with
            | some j => some (pos, pos + 1 + j + 1)
            | none => greedyFindAux (pre ++ r) (pos + 1)
          else greedyFindAux (pre ++ r) (pos + 1) from rfl,
      if_neg (by simpa using fun hc => hpre.1 hc.symm), ih hpre.2 r (pos + 1)]
    rw [List.length_cons]
    congr 1
    omega

theorem takeWhile_all {p : Char → Bool} :
    ∀ {l : List Char}, (∀ c ∈ l, p c = true) → l.takeWhile p = l := by
  intro l
  induction l with
  | nil => intro _; rfl
  | cons c rest ih =>
    intro h
    rw [List.takeWhile_cons, if_pos (h c (List.mem_cons_self _ _))]
    rw [ih (fun x hx => h x (List.mem_cons_of_mem _ hx))]

theorem codeBlockCapturesFrom_nil {text : List Char} (h : btick ∉ text) :
    ∀ (fuel i : Nat), codeBlockCapturesFrom text fuel i = [] := by
  intro fuel
  induction fuel with
  | zero => intro i; rfl
  | succ n ih =>
    intro i
    show (if i ≥ text.length then []
      else match tryCodeBlock (text.drop i) i with
        | some (cs, ce, fe) =>
          if fe > i then slice text cs ce :: codeBlockCapturesFrom text n fe
          else []
        | none => codeBlockCapturesFrom text n (i + 1)) = []
    by_cases hi : i ≥ text.length
    · rw [if_pos hi]
    · rw [if_neg hi]
      have hnone : tryCodeBlock (text.drop i) i = none := by
        cases hd : text.drop i with
        | nil => rfl
        | cons a rest0 =>
          cases rest0 with
          | nil => rfl
          | cons b rest1 =>
            cases rest1 with
            | nil => rfl
            | cons c rest =>
              show (if a = btick ∧ b = btick ∧ c = btick then _ else none) = none
              rw [if_neg]
              rintro ⟨rfl, -, -⟩
              exact h (List.mem_of_mem_drop (by rw [hd]; exact List.mem_cons_self _ _))
      rw [hnone]
      exact ih (i + 1)

/-- A list is lexicographically smaller than any of its proper
extensions. -/
theorem list_lt_append {α : Type} [LinearOrder α] :
    ∀ (l t : List α), t ≠ [] → l < l ++ t := by
  intro l
  induction l with
  | nil =>
    intro t ht
    cases t with
    | nil => exact absurd rfl ht
    | cons c t' => exact List.nil_lt_cons c t'
  | cons a l ih =>
    intro t ht
    show List.Lex (· < ·) (a :: l) ((a :: l) ++ t)
    exact List.Lex.cons (ih t ht)

theorem greedyFindAux_cons_brace (l : List Char) (pos : Nat) {j : Nat}
    (h : lastBraceIdx (l.takeWhile (fun ch => ch ≠ '\n')) = some j) :
    greedyFindAux ('{' :: l) pos = some (pos, pos + 1 + j + 1) := by
  show (if ('{' : Char) = '{' then
      match lastBraceIdx (l.takeWhile (fun ch => ch ≠ '\n')) with
      | some j => some (pos, pos + 1 + j + 1)
      | none => greedyFindAux l (pos + 1)
    else greedyFindAux l (pos + 1)) = some (pos, pos + 1 + j + 1)
  rw [if_pos rfl, h]

/-- On prose + object + prose with a single line, no backtick-free prose
braces and a closing brace in the suffix, the greedy regex produces
exactly one match: from the object's opening brace to the last closing
brace of the text. -/
theorem greedy_finds_single (pre tl post : List Char) (j : Nat)
    (hpre : '{' ∉ pre) (hpost : '{' ∉ post)
    (hnl : '\n' ∉ tl ++ post)
    (hlast : lastBraceIdx post = some j) :
    JSON_OBJECT_finds (pre ++ ('{' :: tl) ++ post)
      = [('{' :: tl) ++ post.take (j + 1)] ∧
    greedyFindAux (pre ++ ('{' :: tl) ++ post) 0
      = some (pre.length, pre.length + 1 + (tl.length + j) + 1) ∧
    slice (pre ++ ('{' :: tl) ++ post) pre.length
        (pre.length + 1 + (tl.length + j) + 1)
      = ('{' :: tl) ++ post.take (j + 1) := by
  have htw : (tl ++ post).takeWhile (fun ch => ch ≠ '\n') = tl ++ post :=
    takeWhile_all (fun c hc => by
      simp only [decide_eq_true_eq]
      intro hceq
      exact hnl (hceq ▸ hc))
  have hlast' : lastBraceIdx ((tl ++ post).takeWhile (fun ch => ch ≠ '\n'))
      = some (tl.length + j) := by
    rw [htw]
    exact lastBraceIdx_append_some hlast tl
  have hfind : greedyFindAux (pre ++ ('{' :: tl) ++ post) 0
      = some (pre.length, pre.length + 1 + (tl.length + j) + 1) := by
    rw [List.append_assoc, greedyFindAux_append hpre, List.cons_append,
      greedyFindAux_cons_brace (tl ++ post) (0 + pre.length) hlast']
    simp
  have hlenpos : 0 < (pre ++ ('{' :: tl) ++ post).length := by
    simp [List.length_append]
  obtain ⟨m, hm⟩ := Nat.exists_eq_succ_of_ne_zero (Nat.pos_iff_ne_zero.mp hlenpos)
  have hdrop2 : (pre ++ ('{' :: tl) ++ post).drop
      (pre.length + 1 + (tl.length + j) + 1) = post.drop (j + 1) := by
    rw [List.append_assoc,
      show pre.length + 1 + (tl.length + j) + 1
        = pre.length + (('{' :: tl).length + (j + 1)) by simp; omega,
      List.drop_append,
      show ('{' :: tl).length + (j + 1) = ('{' :: tl).length + (j + 1) from rfl,
      List.drop_append]
  have hnone2 : greedyFindAux (post.drop (j + 1)) (pre.length + 1 + (tl.length + j) + 1)
      = none :=
    greedyFindAux_not_mem
      (fun hmem => hpost (List.mem_of_mem_drop hmem)) _
  have hslice : slice (pre ++ ('{' :: tl) ++ post) pre.length
      (pre.length + 1 + (tl.length + j) + 1)
      = ('{' :: tl) ++ post.take (j + 1) := by
    unfold slice
    rw [List.append_assoc, List.drop_left,
      show pre.length + 1 + (tl.length + j) + 1 - pre.length
        = ('{' :: tl).length + (j + 1) by simp; omega,
      List.take_append]
  refine ⟨?_, hfind, hslice⟩
  unfold JSON_OBJECT_finds
  rw [hm]
  show (match greedyFindAux ((pre ++ ('{' :: tl) ++ post).drop 0) 0 with
    | none => []
    | some (s, e) =>
      if e > 0 then
        slice (pre ++ ('{' :: tl) ++ post) s e
          :: greedyFindsFrom (pre ++ ('{' :: tl) ++ post) (m + 1) e
      else []) = _
  rw [List.drop_zero, hfind]
  dsimp only
  rw [if_pos (by omega)]
  rw [hslice]
  rw [show greedyFindsFrom (pre ++ ('{' :: tl) ++ post) (m + 1)
      (pre.length + 1 + (tl.length + j) + 1)
    = (match greedyFindAux ((pre ++ ('{' :: tl) ++ post).drop
          (pre.length + 1 + (tl.length + j) + 1))
          (pre.length + 1 + (tl.length + j) + 1) with
      | none => []
      | some (s, e) =>
        if e > pre.length + 1 + (tl.length + j) + 1 then
          slice (pre ++ ('{' :: tl) ++ post) s e
            :: greedyFindsFrom (pre ++ ('{' :: tl) ++ post) m e
        else []) from rfl]
  rw [hdrop2, hnone2]

/-- C9 (amended): try_parse succeeds on prose + balanced JSON object +
prose *provided the text is on a single line (and free of backticks and of
further opening braces in the prose)*: then the brace-counting scan
contributes the balanced object, the object is the lexicographically
smallest aggressive candidate (it is a proper prefix of the greedy regex
match), so it is exactly the third candidate, and parsing succeeds even
when the trimmed raw text and the greedy regex candidate both fail to
parse.  (Without the single-line restriction the object need not be the
smallest candidate and `try_parse` can fail — see the counterexample.) -/
theorem claim_C9 {T : Type} (parse : List Char → Option T) (v : T)
    (pre tl post : List Char)
    (h0 : netBraces ('{' :: tl) = 0)
    (hpref : ∀ k, 0 < k → k < ('{' :: tl).length →
      0 < netBraces (('{' :: tl).take k))
    (hpre : '{' ∉ pre) (hpost : '{' ∉ post) (hbrace : '}' ∈ post)
    (hnl : '\n' ∉ pre ++ ('{' :: tl) ++ post)
    (hbt : btick ∉ pre ++ ('{' :: tl) ++ post)
    (hpobj : parse ('{' :: tl) = some v)
    (hptrim : parse (trimChars (pre ++ ('{' :: tl) ++ post)) = none)
    (hpgreedy : ∀ c,
      extract_json_from_response (pre ++ ('{' :: tl) ++ post) = some c →
      parse c = none) :
    balanced_candidate (pre ++ ('{' :: tl) ++ post) = some ('{' :: tl) ∧
    (extract_json_aggressively (pre ++ ('{' :: tl) ++ post)).head?
      = some ('{' :: tl) ∧
    try_parse parse (pre ++ ('{' :: tl) ++ post) = some v := by
  obtain ⟨j, hj⟩ := lastBraceIdx_isSome hbrace
  have hbal := balanced_candidate_concat pre tl post hpre h0 hpref
  have hnl' : '\n' ∉ tl ++ post := by
    intro hmem
    apply hnl
    rw [List.append_assoc]
    refine List.mem_append_right pre ?_
    rw [List.cons_append]
    exact List.mem_cons_of_mem _ hmem
  obtain ⟨hfinds, hfind, hslice⟩ := greedy_finds_single pre tl post j hpre hpost hnl' hj
  have hcaps : JSON_CODE_BLOCK_captures (pre ++ ('{' :: tl) ++ post) = [] := by
    unfold JSON_CODE_BLOCK_captures
    exact codeBlockCapturesFrom_nil hbt _ _
  have htake_ne : post.take (j + 1) ≠ [] := by
    cases post with
    | nil => simp at hbrace
    | cons p rest => simp
  have hlt : ('{' :: tl) < ('{' :: tl) ++ post.take (j + 1) :=
    list_lt_append _ _ htake_ne
  have hraw : raw_candidates (pre ++ ('{' :: tl) ++ post)
      = [('{' :: tl) ++ post.take (j + 1), '{' :: tl] := by
    unfold raw_candidates
    rw [hcaps, hfinds, hbal]
    rfl
  have hsorted_eq : extract_json_aggressively (pre ++ ('{' :: tl) ++ post)
      = [('{' :: tl), ('{' :: tl) ++ post.take (j + 1)] := by
    rw [extract_json_aggressively_eq, hraw]
    rw [show List.insertionSort (α := List Char) (· ≤ ·)
        [('{' :: tl) ++ post.take (j + 1), '{' :: tl]
      = List.orderedInsert (· ≤ ·) (('{' :: tl) ++ post.take (j + 1))
          (List.orderedInsert (· ≤ ·) ('{' :: tl) []) from rfl]
    rw [show List.orderedInsert (α := List Char) (· ≤ ·) ('{' :: tl) []
      = ['{' :: tl] from rfl]
    rw [List.orderedInsert, if_neg (not_le.mpr hlt)]
    rw [show List.orderedInsert (α := List Char) (· ≤ ·)
        (('{' :: tl) ++ post.take (j + 1)) []
      = [('{' :: tl) ++ post.take (j + 1)] from rfl]
    rw [List.destutter_pair, if_pos (ne_of_lt hlt)]
  have hhead : (extract_json_aggressively (pre ++ ('{' :: tl) ++ post)).head?
      = some ('{' :: tl) := by
    rw [hsorted_eq]
    rfl
  have hresp : extract_json_from_response (pre ++ ('{' :: tl) ++ post)
      = some (('{' :: tl) ++ post.take (j + 1)) := by
    unfold extract_json_from_response
    rw [hcaps]
    dsimp only [List.head?]
    rw [hfind]
    dsimp only
    rw [hslice]
  have hpG : parse (('{' :: tl) ++ post.take (j + 1)) = none :=
    hpgreedy _ hresp
  refine ⟨hbal, hhead, ?_⟩
  unfold try_parse try_parse_candidates
  rw [hresp, hhead]
  simp only [first_parse]
  rw [hptrim]
  dsimp only
  rw [hpG]
  dsimp only
  rw [hpobj]

/-- Counterexample for C9 as literally stated: on
`p {"a":{"b":1},\n"c":2} q` — prose before and after a single
brace-balanced JSON object containing nested braces — the brace-counting
scan does contribute the balanced object, the object is valid JSON, the
trimmed raw text and the greedy regex candidate both fail to parse, yet
`try_parse` fails: the third candidate is the lexicographically smallest
aggressive candidate, which here is the unbalanced greedy match
`{"a":{"b":1}` (a proper prefix of the object), not the balanced object.
The parse function is the concrete JSON recognizer `json_parse_opt`
(anything it rejects, `serde_json` rejects). -/
theorem claim_C9_counterexample :
    cexC9 = cexC9pre ++ cexC9obj ++ cexC9post ∧
    netBraces cexC9obj = 0 ∧
    json_valid cexC9obj = true ∧
    balanced_candidate cexC9 = some cexC9obj ∧
    json_parse_opt (trimChars cexC9) = none ∧
    extract_json_from_response cexC9 = some cexC9greedy ∧
    json_parse_opt cexC9greedy = none ∧
    (extract_json_aggressively cexC9).head? = some cexC9greedy ∧
    cexC9greedy ≠ cexC9obj ∧
    try_parse json_parse_opt cexC9 = none := by
  refine ⟨by rfl, by rfl, by rfl, by rfl, by rfl, by rfl, by rfl, by rfl,
    by decide, by rfl⟩

/-- The single-line witness text `p {"a":{"b":1}} q}`: prose with a later
closing brace after a balanced nested object, all on one line. -/
def wC9pre : List Char := "p ".toList

def wC9tl : List Char := "\"a\":\x7b\"b\":1\x7d\x7d".toList

def wC9post : List Char := " q\x7d".toList

/-- Witness for C9: on the single-line text the object is recovered and
`try_parse` succeeds with the concrete JSON recognizer, although both the
trimmed text and the greedy candidate fail to parse. -/
theorem claim_C9_witness :
    balanced_candidate (wC9pre ++ ('{' :: wC9tl) ++ wC9post)
      = some ('{' :: wC9tl) ∧
    (extract_json_aggressively (wC9pre ++ ('{' :: wC9tl) ++ wC9post)).head?
      = some ('{' :: wC9tl) ∧
    try_parse json_parse_opt (wC9pre ++ ('{' :: wC9tl) ++ wC9post)
      = some () :=
  claim_C9 json_parse_opt () wC9pre wC9tl wC9post
    (by decide)
    (fun k hk0 hklt =>
      (by decide : ∀ k, k < ('{' :: wC9tl).length →
        (0 < k → 0 < netBraces (('{' :: wC9tl).take k))) k hklt hk0)
    (by decide) (by decide) (by decide) (by decide)
    (by decide) (by decide) (by decide)
    (fun c h => by
      rw [show extract_json_from_response (wC9pre ++ ('{' :: wC9tl) ++ wC9post)
          = some ("\x7b\"a\":\x7b\"b\":1\x7d\x7d q\x7d".toList) from rfl,
        Option.some.injEq] at h
      rw [← h]
      rfl)

end AutoDoc
